import Mathlib

/-!
# tunnel-boot: a shallow embedding of the variable-block extractor, the argument consumer
and the version parser

The development embeds three pieces of the plugin:

* `processVars` (src/plugin.go), the scanner that turns the line-oriented output of the
  platform's `env` command into a name-to-value mapping;
* `ArgConsumer` (src/cli/args.go), the bookkeeping of positional command-line arguments;
* `ParsePluginVersion` (src/pluginutil/version_parser.go), the parser of the version string.

Modelling conventions.

* A Go `string` is a sequence of bytes (`GoString`). String literals of the source are the
  UTF-8 encodings of their text (`utf8`).
* A run-time panic of the Go program is an `Except.error` carrying the kind of panic.
* A Go `map[string]string` is an association list with unique keys, updated in place.
* A callback that the code invokes for its effect (`diagnose`) is modelled by the list of
  the invocations that were made, in order.
* Go `int` is 64 bits wide and its arithmetic wraps around (`wrapInt`).
* Functions of the Go standard library are modelled after their documentation
  (`strings.HasPrefix`, `strings.LastIndex`, `strings.TrimSpace`, `strings.Join`,
  `strings.Split`, `strconv.Atoi`).
-/

namespace TunnelBoot

/-! ## Go strings -/

/-- A Go string: an immutable sequence of bytes. -/
abbrev GoString := List UInt8

/-- The bytes of a piece of text, i.e. the Go string written with that literal. -/
def utf8 (s : String) : GoString := s.toList.flatMap String.utf8EncodeChar

/-- The two kinds of run-time panic that the embedded code can raise. -/
inductive Panic where
  | indexOutOfRange
  | sliceBoundsOutOfRange
  deriving DecidableEq, Repr

/-- Equality of outcomes is decidable, so that closed statements can be evaluated. -/
instance decEqExcept {ε α : Type} [DecidableEq ε] [DecidableEq α] : DecidableEq (Except ε α) :=
  fun x y =>
    match x, y with
    | Except.ok a, Except.ok b =>
      if h : a = b then isTrue (by rw [h]) else isFalse (fun h2 => h (by cases h2; rfl))
    | Except.error a, Except.error b =>
      if h : a = b then isTrue (by rw [h]) else isFalse (fun h2 => h (by cases h2; rfl))
    | Except.ok _, Except.error _ => isFalse (fun h => by cases h)
    | Except.error _, Except.ok _ => isFalse (fun h => by cases h)

/-- Go's `strings.HasPrefix(s, pre)`: `len(s) >= len(pre) && s[:len(pre)] == pre`. -/
def HasPrefix (s pre : GoString) : Bool :=
  decide (pre.length ≤ s.length) && (s.take pre.length == pre)

/-- Search for `sub` at the byte offsets `i, i-1, ..., 0` of `s`; the first hit, else `-1`. -/
def lastIndexFrom (s sub : GoString) : Nat → Int
  | 0 => if HasPrefix s sub then 0 else -1
  | i + 1 => if HasPrefix (s.drop (i + 1)) sub then ((i + 1 : Nat) : Int) else lastIndexFrom s sub i

/-- Go's `strings.LastIndex(s, sub)`: the byte offset of the last occurrence of `sub` in `s`,
or `-1` when there is none. -/
def LastIndex (s sub : GoString) : Int :=
  if sub.length ≤ s.length then lastIndexFrom s sub (s.length - sub.length) else -1

/-- The Go slice expression `s[lo:hi]` on a string; it panics unless `0 ≤ lo ≤ hi ≤ len(s)`. -/
def sliceStr (s : GoString) (lo hi : Int) : Except Panic GoString :=
  if 0 ≤ lo ∧ lo ≤ hi ∧ hi ≤ (s.length : Int) then
    Except.ok ((s.drop lo.toNat).take (hi.toNat - lo.toNat))
  else
    Except.error Panic.sliceBoundsOutOfRange

/-- The Go index expression `xs[i]` on a slice; it panics unless `0 ≤ i < len(xs)`. -/
def indexSlice {α : Type} (xs : List α) (i : Int) : Except Panic α :=
  if i < 0 then Except.error Panic.indexOutOfRange
  else
    match xs.get? i.toNat with
    | some x => Except.ok x
    | none => Except.error Panic.indexOutOfRange

/-- The UTF-8 encodings of the code points for which Go's `unicode.IsSpace` holds:
tab, line feed, vertical tab, form feed, carriage return, space, U+0085, U+00A0, U+1680,
U+2000 to U+200A, U+2028, U+2029, U+202F, U+205F and U+3000. -/
def spaceEncodings : List GoString :=
  [[0x09], [0x0A], [0x0B], [0x0C], [0x0D], [0x20], [0xC2, 0x85], [0xC2, 0xA0],
   [0xE1, 0x9A, 0x80],
   [0xE2, 0x80, 0x80], [0xE2, 0x80, 0x81], [0xE2, 0x80, 0x82], [0xE2, 0x80, 0x83],
   [0xE2, 0x80, 0x84], [0xE2, 0x80, 0x85], [0xE2, 0x80, 0x86], [0xE2, 0x80, 0x87],
   [0xE2, 0x80, 0x88], [0xE2, 0x80, 0x89], [0xE2, 0x80, 0x8A],
   [0xE2, 0x80, 0xA8], [0xE2, 0x80, 0xA9], [0xE2, 0x80, 0xAF], [0xE2, 0x81, 0x9F],
   [0xE3, 0x80, 0x80]]

/-- Remove one white-space code point from the front of `s`, if `s` starts with one. -/
def dropLeadingSpace (s : GoString) : Option GoString :=
  (spaceEncodings.find? (fun e => HasPrefix s e)).map (fun e => s.drop e.length)

/-- Remove one white-space code point from the front of `r`, where `r` is a string read
backwards (so the encodings are matched backwards too). -/
def dropTrailingSpaceRev (r : GoString) : Option GoString :=
  (spaceEncodings.find? (fun e => HasPrefix r e.reverse)).map (fun e => r.drop e.length)

/-- Apply `f` as long as it succeeds, at most `fuel` times. -/
def stripWhile (f : GoString → Option GoString) : Nat → GoString → GoString
  | 0, s => s
  | fuel + 1, s =>
    match f s with
    | some rest => stripWhile f fuel rest
    | none => s

/-- Go's `strings.TrimSpace(s)`: `s` without its leading and trailing white space, where
white space is decided code point by code point on the UTF-8 decoding of `s`. Every removal
shortens the string, so `len(s)` rounds always suffice. -/
def TrimSpace (s : GoString) : GoString :=
  let l := stripWhile dropLeadingSpace s.length s
  (stripWhile dropTrailingSpaceRev l.length l.reverse).reverse

/-! ## Go maps from strings to strings -/

/-- A Go `map[string]string`: an association list in which every key occurs once. -/
abbrev GoMap := List (GoString × GoString)

/-- The assignment `m[k] = v`. -/
def mapSet : GoMap → GoString → GoString → GoMap
  | [], k, v => [(k, v)]
  | (k0, v0) :: rest, k, v =>
    if k0 = k then (k, v) :: rest else (k0, v0) :: mapSet rest k v

/-- The lookup `m[k]`, with `none` for an absent key. -/
def mapGet : GoMap → GoString → Option GoString
  | [], _ => none
  | (k0, v0) :: rest, k => if k0 = k then some v0 else mapGet rest k

/-- The keys of a map. -/
def mapKeys (m : GoMap) : List GoString := m.map Prod.fst

/-! ## processVars (src/plugin.go) -/

/-- The variables of the loop in `processVars`: the accumulator slice, which is `nil`
(`none`) outside a block, and the result map. -/
structure VarsState where
  usefulDataAccumulator : Option (List GoString)
  vars : GoMap
  deriving DecidableEq, Repr

/-- The slice expression `header[2:strings.LastIndex(header, "\"")]` that yields the name of
a block from its header line: the bytes from offset 2 up to the last double quote. -/
def headerName (header : GoString) : Except Panic GoString :=
  sliceStr header 2 (LastIndex header (utf8 "\""))

/-- The expression `usefulDataAccumulator[0][2:strings.LastIndex(usefulDataAccumulator[0], "\"")]`.
Indexing a `nil` or empty accumulator panics, and so does the slice expression when the last
double quote of the header is at an offset below 2 or is missing. -/
def varNameOf (acc : Option (List GoString)) : Except Panic GoString :=
  match indexSlice (acc.getD []) 0 with
  | Except.error e => Except.error e
  | Except.ok header => headerName header

/-- The inner loop: `varValue := "\x7b"`, then for `j` from 1 to `len(acc) - 1`,
`varValue = varValue + strings.TrimSpace(acc[j])`. -/
def varValueOf (acc : List GoString) : GoString :=
  (acc.drop 1).foldl (fun varValue varLine => varValue ++ TrimSpace varLine) (utf8 "\x7b")

/-- The first `if` of the loop body, taken when the line starts with a closing brace. -/
def closeBlock (st : VarsState) : Except Panic VarsState :=
  match varNameOf st.usefulDataAccumulator with
  | Except.error e => Except.error e
  | Except.ok varName =>
    Except.ok
      { usefulDataAccumulator := none
        vars := mapSet st.vars varName (varValueOf (st.usefulDataAccumulator.getD [])) }

/-- One iteration of the loop of `processVars` on the line `line`: the three `if`
statements in the order of the source. -/
def processLine (st : VarsState) (line : GoString) : Except Panic VarsState :=
  match (if HasPrefix line (utf8 "\x7d") then closeBlock st else Except.ok st) with
  | Except.error e => Except.error e
  | Except.ok st1 =>
    let acc2 : Option (List GoString) :=
      match st1.usefulDataAccumulator with
      | some acc => some (acc ++ [line])
      | none => none
    let acc3 : Option (List GoString) :=
      if HasPrefix line (utf8 "\x7b") then some [] else acc2
    Except.ok { usefulDataAccumulator := acc3, vars := st1.vars }

/-- The loop of `processVars` over the remaining lines. -/
def processVarsLoop : List GoString → VarsState → Except Panic VarsState
  | [], st => Except.ok st
  | line :: rest, st =>
    match processLine st line with
    | Except.error e => Except.error e
    | Except.ok st1 => processVarsLoop rest st1

/-- The function `processVars(varData)`: the map built by the loop, or the panic that
interrupted it. -/
def processVars (varData : List GoString) : Except Panic GoMap :=
  match processVarsLoop varData { usefulDataAccumulator := none, vars := [] } with
  | Except.error e => Except.error e
  | Except.ok st => Except.ok st.vars

/-- The example input of the specification: a block named VCAP_APPLICATION whose header is
indented by two spaces, between two lines of noise. -/
def envDumpExample : List GoString :=
  [utf8 "noise", utf8 "\x7b", utf8 "  \"VCAP_APPLICATION\": \x7b", utf8 "    \"a\":\"b\"",
   utf8 "  \x7d", utf8 "\x7d", utf8 "noise"]

/-- The lines of one block of the input: the line that opens it, its header line, its
interior lines and the line that closes it. -/
structure Block where
  opening : GoString
  header : GoString
  interior : List GoString
  closing : GoString

/-- The lines of a block, in order. -/
def Block.lines (b : Block) : List GoString :=
  b.opening :: b.header :: (b.interior ++ [b.closing])

/-- A well-formed block with name `name`: the opening line starts with an opening brace, the
header line starts with neither brace and `name` is what the code reads from it, no interior
line starts with a brace, and the closing line starts with a closing brace. -/
def Block.WellFormed (b : Block) (name : GoString) : Prop :=
  HasPrefix b.opening (utf8 "\x7b") = true ∧
  HasPrefix b.header (utf8 "\x7b") = false ∧
  HasPrefix b.header (utf8 "\x7d") = false ∧
  headerName b.header = Except.ok name ∧
  (∀ l ∈ b.interior, HasPrefix l (utf8 "\x7b") = false ∧ HasPrefix l (utf8 "\x7d") = false) ∧
  HasPrefix b.closing (utf8 "\x7d") = true

/-! ## Go integers -/

/-- The value of a Go `int` expression whose mathematical result is `x`: Go integer
arithmetic wraps around in two's complement, here at 64 bits. -/
def wrapInt (x : Int) : Int := (x + 2 ^ 63) % 2 ^ 64 - 2 ^ 63

/-- The largest Go `int`, `math.MaxInt`. -/
def maxInt : Int := 2 ^ 63 - 1

/-! ## ArgConsumer (src/cli/args.go) -/

/-- One invocation `diagnose(message, command)` of the diagnostic callback. -/
structure Diagnostic where
  message : GoString
  command : GoString
  deriving DecidableEq, Repr

/-- The struct `ArgConsumer`. The field `diagnose` is the callback; its invocations are
returned by the methods below instead of being performed. `consumed` is the key set of the
Go map `map[int]struct{}`. -/
structure ArgConsumer where
  positionalArgs : List GoString
  command : GoString
  consumed : Finset Int

/-- Two consumers are equal when their fields are. -/
instance decEqArgConsumer : DecidableEq ArgConsumer := fun a b =>
  decidable_of_iff
    (a.positionalArgs = b.positionalArgs ∧ a.command = b.command ∧ a.consumed = b.consumed)
    (by cases a; cases b; simp)

/-- What a method call leaves behind when it returns: the returned value, the consumer
after the call, and the invocations of the diagnostic callback made during the call. -/
structure Outcome where
  value : GoString
  state : ArgConsumer
  diagnosed : List Diagnostic

/-- Two outcomes are equal when their fields are. -/
instance decEqOutcome : DecidableEq Outcome := fun a b =>
  decidable_of_iff (a.value = b.value ∧ a.state = b.state ∧ a.diagnosed = b.diagnosed)
    (by cases a; cases b; simp)

/-- The function `NewArgConsumer(positionalArgs, diagnose)`: index 0 is entered in
`consumed`, and `positionalArgs[0]` becomes `command` (a panic on an empty slice). -/
def NewArgConsumer (positionalArgs : List GoString) : Except Panic ArgConsumer :=
  match indexSlice positionalArgs 0 with
  | Except.error e => Except.error e
  | Except.ok command =>
    Except.ok { positionalArgs := positionalArgs, command := command, consumed := {0} }

/-- The method `Consume(arg, argDescription)`. The condition is
`len(ac.positionalArgs) < arg+1 || ac.positionalArgs[arg] == ""`, evaluated left to right
with short circuit; `arg+1` is a Go `int` addition. -/
def Consume (ac : ArgConsumer) (arg : Int) (argDescription : GoString) :
    Except Panic Outcome :=
  if (ac.positionalArgs.length : Int) < wrapInt (arg + 1) then
    Except.ok
      { value := utf8 ""
        state := ac
        diagnosed :=
          [{ message := utf8 "Incorrect usage: " ++ argDescription ++ utf8 " not specified."
             command := ac.command }] }
  else
    match indexSlice ac.positionalArgs arg with
    | Except.error e => Except.error e
    | Except.ok s =>
      if s = utf8 "" then
        Except.ok
          { value := utf8 ""
            state := ac
            diagnosed :=
              [{ message :=
                   utf8 "Incorrect usage: " ++ argDescription ++ utf8 " not specified."
                 command := ac.command }] }
      else
        Except.ok
          { value := s
            state := { ac with consumed := insert arg ac.consumed }
            diagnosed := [] }

/-- The method `ConsumeOptional(arg, argDescription)`: the same condition, but the branch
taken on a miss only returns the empty string. -/
def ConsumeOptional (ac : ArgConsumer) (arg : Int) (_argDescription : GoString) :
    Except Panic Outcome :=
  if (ac.positionalArgs.length : Int) < wrapInt (arg + 1) then
    Except.ok { value := utf8 "", state := ac, diagnosed := [] }
  else
    match indexSlice ac.positionalArgs arg with
    | Except.error e => Except.error e
    | Except.ok s =>
      if s = utf8 "" then
        Except.ok { value := utf8 "", state := ac, diagnosed := [] }
      else
        Except.ok
          { value := s
            state := { ac with consumed := insert arg ac.consumed }
            diagnosed := [] }

/-- Go's `strings.Join(elems, sep)`. -/
def Join : List GoString → GoString → GoString
  | [], _ => []
  | [a], _ => a
  | a :: b :: rest, sep => a ++ sep ++ Join (b :: rest) sep

/-- The loop `for i, arg := range ac.positionalArgs` of `CheckAllConsumed`, started at index
`i` on the remaining arguments: the arguments whose index is not a key of `consumed`. -/
def extraFrom (consumed : Finset Int) : Nat → List GoString → List GoString
  | _, [] => []
  | i, arg :: rest =>
    if (i : Int) ∈ consumed then extraFrom consumed (i + 1) rest
    else arg :: extraFrom consumed (i + 1) rest

/-- The slice `extra` that `CheckAllConsumed` builds. -/
def extraArgs (ac : ArgConsumer) : List GoString :=
  extraFrom ac.consumed 0 ac.positionalArgs

/-- The message `fmt.Sprintf("Incorrect usage: invalid %s '%s'.", argumentInsert,
strings.Join(extra, " "))`, where `argumentInsert` is "arguments" when `len(extra) > 1`
and "argument" otherwise. -/
def invalidArgsMessage (extra : List GoString) : GoString :=
  utf8 "Incorrect usage: invalid " ++
    (if extra.length > 1 then utf8 "arguments" else utf8 "argument") ++
    utf8 " \x27" ++ Join extra (utf8 " ") ++ utf8 "\x27."

/-- The method `CheckAllConsumed()`: the invocations of the diagnostic callback it makes
(at most one). It changes no field. -/
def CheckAllConsumed (ac : ArgConsumer) : List Diagnostic :=
  if ac.consumed.card < ac.positionalArgs.length then
    [{ message := invalidArgsMessage (extraArgs ac), command := ac.command }]
  else
    []

/-- One call on a consumer: `Consume` or `ConsumeOptional` with its arguments. -/
inductive Call where
  | consume (arg : Int) (argDescription : GoString)
  | consumeOptional (arg : Int) (argDescription : GoString)
  deriving DecidableEq

/-- Perform one call. -/
def Call.run (ac : ArgConsumer) : Call → Except Panic Outcome
  | Call.consume arg d => Consume ac arg d
  | Call.consumeOptional arg d => ConsumeOptional ac arg d

/-- The index that a call is about. -/
def Call.arg : Call → Int
  | Call.consume arg _ => arg
  | Call.consumeOptional arg _ => arg

/-- The consumer that `NewArgConsumer` returns for the arguments of
`cf push-tunnel-app cf-app spring-app`. -/
def exampleConsumer : ArgConsumer :=
  { positionalArgs := [utf8 "push-tunnel-app", utf8 "cf-app", utf8 "spring-app"]
    command := utf8 "push-tunnel-app"
    consumed := {0} }

/-- The consumer that `NewArgConsumer` returns for a command followed by an empty argument. -/
def emptyArgConsumer : ArgConsumer :=
  { positionalArgs := [utf8 "get-local-env", utf8 ""]
    command := utf8 "get-local-env"
    consumed := {0} }

/-- The consumers that a program can hold: those returned by `NewArgConsumer`, and those
left by a call of `Consume` or `ConsumeOptional` that returned, on such a consumer. -/
inductive Reachable : ArgConsumer → Prop where
  | new (positionalArgs : List GoString) (ac : ArgConsumer)
      (h : NewArgConsumer positionalArgs = Except.ok ac) : Reachable ac
  | step (ac : ArgConsumer) (c : Call) (out : Outcome)
      (hac : Reachable ac) (h : c.run ac = Except.ok out) : Reachable out.state

/-! ## ParsePluginVersion (src/pluginutil/version_parser.go) -/

/-- The smallest Go `int`, `math.MinInt`. -/
def minInt : Int := -(2 ^ 63)

/-- Go's `strings.Split(s, sep)` for a separator of one byte, which is how the source calls
it (with "."): the pieces of `s` between the occurrences of `sep`; one piece more than there
are occurrences. -/
def Split : GoString → UInt8 → List GoString
  | [], _ => [[]]
  | c :: rest, sep =>
    if c = sep then [] :: Split rest sep
    else
      match Split rest sep with
      | [] => [[c]]
      | piece :: pieces => (c :: piece) :: pieces

/-- The two errors of Go's `strconv` package, `strconv.ErrSyntax` and `strconv.ErrRange`. -/
inductive NumError where
  | errSyntax
  | errRange
  deriving DecidableEq, Repr

/-- The digit loop of `strconv.ParseUint(s, 10, 64)` with the value `n` read so far: a byte
that is not a decimal digit is a syntax error, a value above `2^64 - 1` is a range error. -/
def parseUintLoop : GoString → Nat → Except NumError Nat
  | [], n => Except.ok n
  | c :: rest, n =>
    if 48 ≤ c.toNat ∧ c.toNat ≤ 57 then
      if n * 10 + (c.toNat - 48) > 2 ^ 64 - 1 then Except.error NumError.errRange
      else parseUintLoop rest (n * 10 + (c.toNat - 48))
    else Except.error NumError.errSyntax

/-- Go's `strconv.Atoi(s)` with a 64-bit `int`: an optional sign, then at least one decimal
digit and nothing else; the value must lie between `-2^63` and `2^63 - 1`. -/
def Atoi (s : GoString) : Except NumError Int :=
  match s with
  | [] => Except.error NumError.errSyntax
  | c :: rest =>
    let neg : Bool := decide (c = 45)
    let digits : GoString := if c = 43 ∨ c = 45 then rest else c :: rest
    if digits = [] then Except.error NumError.errSyntax
    else
      match parseUintLoop digits 0 with
      | Except.error e => Except.error e
      | Except.ok un =>
        if neg = false ∧ un ≥ 2 ^ 63 then Except.error NumError.errRange
        else if neg = true ∧ un > 2 ^ 63 then Except.error NumError.errRange
        else Except.ok (if neg then -(un : Int) else (un : Int))

/-- An argument passed to the `fail` callback after the format string. -/
inductive Insert where
  | str (s : GoString)
  | int (n : Int)
  deriving DecidableEq, Repr

/-- One invocation `fail(format, inserts...)` of the failure callback. -/
structure FailCall where
  format : GoString
  inserts : List Insert
  deriving DecidableEq, Repr

/-- The type `plugin.VersionType` of the platform's plugin interface. -/
structure VersionType where
  Major : Int
  Minor : Int
  Build : Int
  deriving DecidableEq, Repr

/-- The constant `numComponents`. -/
def numComponents : Nat := 3

/-- The loop `for c := 0; c < numComponents; c++` of `getPluginVersionComponents`, with
`remaining` iterations to go from index `c`: `strconv.Atoi(components[c])`, then either the
call of `fail` and the return of `intComponents` as it is, or `intComponents[c] = v`. The
index `c` is within range of both slices, whose length is `numComponents`. -/
def componentsLoop (pv : GoString) (components : List GoString) :
    Nat → Nat → List Int → List Int × List FailCall
  | 0, _, intComponents => (intComponents, [])
  | remaining + 1, c, intComponents =>
    match Atoi (components.getD c []) with
    | Except.error _ =>
      (intComponents,
        [{ format := utf8 "pluginVersion %q has invalid format. Expected integer components."
           inserts := [Insert.str pv] }])
    | Except.ok v => componentsLoop pv components remaining (c + 1) (intComponents.set c v)

/-- The function `getPluginVersionComponents(pv, fail)`: the slice it returns and the
invocations of `fail` it makes, for a `fail` that returns. -/
def getPluginVersionComponents (pv : GoString) : List Int × List FailCall :=
  let intComponents : List Int := List.replicate numComponents 0
  let components := Split pv 46
  if components.length ≠ numComponents then
    (intComponents,
      [{ format :=
           utf8 "pluginVersion %q has invalid format. Expected %d dot-separated integer components."
         inserts := [Insert.str pv, Insert.int numComponents] }])
  else componentsLoop pv components numComponents 0 intComponents

/-- What a call of `ParsePluginVersion` leaves behind when `fail` returns: the version
returned and the invocations of `fail`. -/
structure VersionOutcome where
  version : VersionType
  failed : List FailCall
  deriving DecidableEq, Repr

/-- The function `ParsePluginVersion(pv, fail)`. -/
def ParsePluginVersion (pv : GoString) : VersionOutcome :=
  let r := getPluginVersionComponents pv
  { version := { Major := r.1.getD 0 0, Minor := r.1.getD 1 0, Build := r.1.getD 2 0 }
    failed := r.2 }

/-- The base-10 digits of a natural number, most significant first; a single 0 for zero. -/
def decimalDigits (n : Nat) : List Nat :=
  if n = 0 then [0] else (Nat.digits 10 n).reverse

/-- The byte that prints a decimal digit. -/
def digitByte (d : Nat) : UInt8 := (48 + d).toUInt8

/-- The base-10 rendering of an integer, as `strconv.Itoa` and the verb `%d` print it: a
minus sign for a negative number, then the digits without leading zeros. -/
def Itoa (a : Int) : GoString :=
  (if a < 0 then [45] else []) ++ (decimalDigits a.natAbs).map digitByte

/-- The sign written in front of a base-10 integer literal: none, a minus or a plus. -/
inductive Sign where
  | none
  | minus
  | plus
  deriving DecidableEq, Repr

/-- A base-10 integer literal: its sign and its digits, most significant first. -/
structure Literal where
  sign : Sign
  digits : List Nat
  deriving DecidableEq, Repr

/-- A literal is well formed when it has at least one digit and every digit is below ten. -/
def Literal.WellFormed (l : Literal) : Prop :=
  l.digits ≠ [] ∧ ∀ d ∈ l.digits, d < 10

/-- The text of a literal. -/
def Literal.text (l : Literal) : GoString :=
  (match l.sign with
    | Sign.none => []
    | Sign.minus => [45]
    | Sign.plus => [43]) ++ l.digits.map digitByte

/-- The integer that a literal denotes. -/
def Literal.value (l : Literal) : Int :=
  match l.sign with
  | Sign.minus => -((Nat.ofDigits 10 l.digits.reverse : Nat) : Int)
  | _ => ((Nat.ofDigits 10 l.digits.reverse : Nat) : Int)

/-- A token for which `strconv.Atoi` returns an error. -/
def atoiFails (token : GoString) : Bool :=
  match Atoi token with
  | Except.error _ => true
  | Except.ok _ => false

/-- An invalid version string: it does not split on "." into exactly three tokens, or one of
its tokens does not parse as an integer. -/
def InvalidVersion (pv : GoString) : Prop :=
  (Split pv 46).length ≠ 3 ∨ (Split pv 46).any atoiFails = true

/-- Whether a version string is invalid can be computed. -/
instance decInvalidVersion (pv : GoString) : Decidable (InvalidVersion pv) :=
  inferInstanceAs (Decidable ((Split pv 46).length ≠ 3 ∨ (Split pv 46).any atoiFails = true))

/-- The value of a token when `strconv.Atoi` accepts it, and 0 otherwise. -/
def atoiOrZero (token : GoString) : Int :=
  match Atoi token with
  | Except.error _ => 0
  | Except.ok v => v

/-! ## Lemmas on the loop of processVars -/

/-- The opening brace is the byte 123. -/
theorem utf8_open : utf8 "\x7b" = [123] := by decide

/-- The closing brace is the byte 125. -/
theorem utf8_close : utf8 "\x7d" = [125] := by decide

/-- A line that starts with an opening brace does not start with a closing brace. -/
theorem hasPrefix_close_of_open (l : GoString) (h : HasPrefix l (utf8 "\x7b") = true) :
    HasPrefix l (utf8 "\x7d") = false := by
  rw [utf8_open] at h
  rw [utf8_close]
  cases l with
  | nil => simp [HasPrefix] at h
  | cons b t =>
    simp [HasPrefix] at h ⊢
    subst h
    decide

/-- A line that starts with a closing brace does not start with an opening brace. -/
theorem hasPrefix_open_of_close (l : GoString) (h : HasPrefix l (utf8 "\x7d") = true) :
    HasPrefix l (utf8 "\x7b") = false := by
  cases h2 : HasPrefix l (utf8 "\x7b") with
  | false => rfl
  | true => rw [hasPrefix_close_of_open l h2] at h; cases h

/-- A line that starts with no brace is appended to an open accumulator and otherwise ignored. -/
theorem processLine_plain (st : VarsState) (line : GoString)
    (ho : HasPrefix line (utf8 "\x7b") = false) (hc : HasPrefix line (utf8 "\x7d") = false) :
    processLine st line =
      Except.ok { usefulDataAccumulator := st.usefulDataAccumulator.map (fun acc => acc ++ [line])
                  vars := st.vars } := by
  cases st with
  | mk acc vars => cases acc <;> simp [processLine, ho, hc]

/-- A line that starts with an opening brace leaves an empty, open accumulator. -/
theorem processLine_open (st : VarsState) (line : GoString)
    (ho : HasPrefix line (utf8 "\x7b") = true) :
    processLine st line = Except.ok { usefulDataAccumulator := some [], vars := st.vars } := by
  simp [processLine, ho, hasPrefix_close_of_open line ho]

/-- A line that starts with a closing brace closes the block, or panics as `closeBlock` does. -/
theorem processLine_close (st : VarsState) (line : GoString)
    (hc : HasPrefix line (utf8 "\x7d") = true) :
    processLine st line = closeBlock st := by
  have ho := hasPrefix_open_of_close line hc
  unfold processLine
  simp only [hc, if_true]
  unfold closeBlock
  cases varNameOf st.usefulDataAccumulator with
  | error e => rfl
  | ok n => simp [ho]

/-- The loop on a concatenation runs the second part from the state left by the first. -/
theorem processVarsLoop_append (xs ys : List GoString) (st : VarsState) :
    processVarsLoop (xs ++ ys) st =
      match processVarsLoop xs st with
      | Except.error e => Except.error e
      | Except.ok st1 => processVarsLoop ys st1 := by
  induction xs generalizing st with
  | nil => rfl
  | cons x xs ih =>
    simp only [List.cons_append, processVarsLoop]
    cases processLine st x with
    | error e => rfl
    | ok st1 => exact ih st1

/-- Lines that start with no brace are collected by an open accumulator. -/
theorem processVarsLoop_plain_open (ls : List GoString) (acc : List GoString) (vars : GoMap)
    (h : ∀ l ∈ ls, HasPrefix l (utf8 "\x7b") = false ∧ HasPrefix l (utf8 "\x7d") = false) :
    processVarsLoop ls { usefulDataAccumulator := some acc, vars := vars } =
      Except.ok { usefulDataAccumulator := some (acc ++ ls), vars := vars } := by
  induction ls generalizing acc with
  | nil => simp [processVarsLoop]
  | cons l ls ih =>
    have hl := h l (List.mem_cons_self l ls)
    simp only [processVarsLoop, processLine_plain _ l hl.1 hl.2, Option.map_some']
    rw [ih (acc ++ [l]) (fun x hx => h x (List.mem_cons_of_mem l hx))]
    simp

/-- Lines that start with no brace are ignored while no block is open. -/
theorem processVarsLoop_plain_closed (ls : List GoString) (vars : GoMap)
    (h : ∀ l ∈ ls, HasPrefix l (utf8 "\x7b") = false ∧ HasPrefix l (utf8 "\x7d") = false) :
    processVarsLoop ls { usefulDataAccumulator := none, vars := vars } =
      Except.ok { usefulDataAccumulator := none, vars := vars } := by
  induction ls with
  | nil => simp [processVarsLoop]
  | cons l ls ih =>
    have hl := h l (List.mem_cons_self l ls)
    simp only [processVarsLoop, processLine_plain _ l hl.1 hl.2, Option.map_none']
    exact ih (fun x hx => h x (List.mem_cons_of_mem l hx))

/-- The loop over the lines of a well-formed block, from any state: one entry is set, under
the name of the header, and the accumulator is `nil` again. -/
theorem processVarsLoop_block (b : Block) (name : GoString) (hb : b.WellFormed name)
    (st : VarsState) :
    processVarsLoop b.lines st =
      Except.ok { usefulDataAccumulator := none
                  vars := mapSet st.vars name (varValueOf (b.header :: b.interior)) } := by
  obtain ⟨hopen, hho, hhc, hname, hint, hclose⟩ := hb
  unfold Block.lines
  simp only [processVarsLoop, processLine_open st _ hopen, processLine_plain _ _ hho hhc,
    Option.map_some', List.nil_append]
  rw [processVarsLoop_append, processVarsLoop_plain_open _ _ _ hint]
  simp only [processVarsLoop, processLine_close _ _ hclose, closeBlock, varNameOf,
    Option.getD_some, List.singleton_append, indexSlice]
  simp [hname]

/-- When no line starts with an opening brace, the loop never opens the accumulator: it
returns the state unchanged, unless a line starts with a closing brace, where it panics. -/
theorem processVarsLoop_no_open (ls : List GoString) (vars : GoMap)
    (h : ∀ l ∈ ls, HasPrefix l (utf8 "\x7b") = false) :
    processVarsLoop ls { usefulDataAccumulator := none, vars := vars } =
      if ls.any (fun l => HasPrefix l (utf8 "\x7d")) then Except.error Panic.indexOutOfRange
      else Except.ok { usefulDataAccumulator := none, vars := vars } := by
  induction ls with
  | nil => simp [processVarsLoop]
  | cons l ls ih =>
    have ho := h l (List.mem_cons_self l ls)
    cases hc : HasPrefix l (utf8 "\x7d") with
    | true =>
      simp [processVarsLoop, processLine_close _ l hc, closeBlock, varNameOf, indexSlice, hc]
    | false =>
      simp only [processVarsLoop, processLine_plain _ l ho hc, Option.map_none', List.any_cons,
        hc, Bool.false_or]
      exact ih (fun x hx => h x (List.mem_cons_of_mem l hx))

/-- A string starts with the one-byte string `[q]` exactly when its first byte is `q`. -/
theorem hasPrefix_singleton (s : GoString) (q : UInt8) :
    HasPrefix s [q] = true ↔ s.head? = some q := by
  cases s with
  | nil => simp [HasPrefix]
  | cons b t => simp [HasPrefix]

/-- Scanning down from an offset at or after the last occurrence of the byte `q` finds that
occurrence. -/
theorem lastIndexFrom_last (a b : GoString) (q : UInt8) (hb : q ∉ b) (k : Nat)
    (hk : k ≤ b.length) :
    lastIndexFrom (a ++ q :: b) [q] (a.length + k) = (a.length : Int) := by
  induction k with
  | zero =>
    cases hlen : a.length with
    | zero =>
      have ha : a = [] := List.length_eq_zero.mp hlen
      subst ha
      simp [lastIndexFrom, HasPrefix]
    | succ n =>
      have hdrop : (a ++ q :: b).drop (n + 1) = q :: b := by
        rw [← hlen]
        simp
      simp [lastIndexFrom, hdrop, HasPrefix]
  | succ k ih =>
    have hdrop : (a ++ q :: b).drop (a.length + k + 1) = b.drop k := by
      rw [List.drop_append_eq_append_drop]
      have h1 : a.length + k + 1 - a.length = k + 1 := by omega
      have h2 : List.drop (a.length + k + 1) a = [] := List.drop_eq_nil_of_le (by omega)
      rw [h1, h2]
      simp
    have hno : HasPrefix (b.drop k) [q] = false := by
      cases hp : HasPrefix (b.drop k) [q] with
      | false => rfl
      | true =>
        exfalso
        have hhead := (hasPrefix_singleton _ _).mp hp
        exact hb (List.mem_of_mem_drop (List.mem_of_mem_head? hhead))
    rw [show a.length + (k + 1) = a.length + k + 1 by omega]
    simp only [lastIndexFrom, hdrop, hno]
    exact ih (by omega)

/-- The offset that `strings.LastIndex` returns for a byte is the offset of its last
occurrence. -/
theorem LastIndex_last (a b : GoString) (q : UInt8) (hb : q ∉ b) :
    LastIndex (a ++ q :: b) [q] = (a.length : Int) := by
  unfold LastIndex
  rw [if_pos (by simp; omega)]
  have hlen : (a ++ q :: b).length - [q].length = a.length + b.length := by simp
  rw [hlen]
  exact lastIndexFrom_last a b q hb b.length (Nat.le_refl _)

/-- The name read from a header: when `header` is two bytes, then `name`, then a double
quote, then a tail without double quote, the code reads exactly `name`. -/
theorem headerName_of_shape (c0 c1 : UInt8) (name tail : GoString) (ht : (34 : UInt8) ∉ tail) :
    headerName (c0 :: c1 :: (name ++ 34 :: tail)) = Except.ok name := by
  have hq : utf8 "\"" = [34] := by decide
  have hs : c0 :: c1 :: (name ++ 34 :: tail) = (c0 :: c1 :: name) ++ 34 :: tail := by simp
  unfold headerName
  rw [hq, hs, LastIndex_last _ _ _ ht]
  unfold sliceStr
  rw [if_pos (by simp; omega)]
  have hn : ((((c0 :: c1 :: name).length : Nat) : Int)).toNat - (2 : Int).toNat = name.length := by
    simp only [List.length_cons, Int.toNat_ofNat]
    omega
  rw [hn]
  simp

/-- With the header `  "NAME": \x7b` of the specification, indented by two spaces, the name
that the code reads is NAME preceded by the opening double quote. -/
theorem headerName_two_space_header (name : GoString) :
    headerName (utf8 "  \"" ++ name ++ utf8 "\": \x7b") = Except.ok (utf8 "\"" ++ name) := by
  have h1 : utf8 "  \"" = [32, 32, 34] := by decide
  have h2 : utf8 "\": \x7b" = [34, 58, 32, 123] := by decide
  have h3 : utf8 "\"" = [34] := by decide
  rw [h1, h2, h3]
  have := headerName_of_shape 32 32 (34 :: name) [58, 32, 123] (by decide)
  simpa using this

/-- With a header indented by one space, as the platform prints it, the name that the code
reads is NAME. -/
theorem headerName_one_space_header (name : GoString) :
    headerName (utf8 " \"" ++ name ++ utf8 "\": \x7b") = Except.ok name := by
  have h1 : utf8 " \"" = [32, 34] := by decide
  have h2 : utf8 "\": \x7b" = [34, 58, 32, 123] := by decide
  rw [h1, h2]
  have := headerName_of_shape 32 34 name [58, 32, 123] (by decide)
  simpa using this

/-- A block whose header is `  "NAME": \x7b`, indented by two spaces, is well formed as soon
as its other lines are; its name is NAME preceded by the opening double quote. -/
theorem Block.wellFormed_two_space_header (b : Block) (name : GoString)
    (hopen : HasPrefix b.opening (utf8 "\x7b") = true)
    (hheader : b.header = utf8 "  \"" ++ name ++ utf8 "\": \x7b")
    (hint : ∀ l ∈ b.interior,
      HasPrefix l (utf8 "\x7b") = false ∧ HasPrefix l (utf8 "\x7d") = false)
    (hclose : HasPrefix b.closing (utf8 "\x7d") = true) :
    b.WellFormed (utf8 "\"" ++ name) := by
  have h1 : utf8 "  \"" = [32, 32, 34] := by decide
  refine ⟨hopen, ?_, ?_, ?_, hint, hclose⟩
  · rw [hheader, h1, utf8_open]
    simp [HasPrefix]
  · rw [hheader, h1, utf8_close]
    simp [HasPrefix]
  · rw [hheader]
    exact headerName_two_space_header name


/-! ## Theorems on processVars -/

/-- C1 (as stated, refuted): on the example input the result has no key VCAP_APPLICATION
without a quote character, and no key is mapped to the untrimmed text
`\x7b    "a":"b"  \x7d`. -/
theorem processVars_envDumpExample_refutes_claim :
    ∃ m, processVars envDumpExample = Except.ok m ∧
      utf8 "VCAP_APPLICATION" ∉ mapKeys m ∧
      mapGet m (utf8 "VCAP_APPLICATION") = none ∧
      utf8 "\x7b    \"a\":\"b\"  \x7d" ∉ m.map Prod.snd :=
  ⟨[(utf8 "\"VCAP_APPLICATION", utf8 "\x7b\"a\":\"b\"\x7d")], by decide, by decide, by decide,
    by decide⟩

/-- C1 (amended): on the example input processVars returns a mapping with one entry, for the
one block of the input, and the value of that entry is `\x7b"a":"b"\x7d`: an opening brace
followed by the interior lines, each trimmed of surrounding white space, with no separator.
The statement is about the value only. -/
theorem processVars_envDumpExample_value :
    ∃ m, processVars envDumpExample = Except.ok m ∧
      m.map Prod.snd = [utf8 "\x7b\"a\":\"b\"\x7d"] :=
  ⟨[(utf8 "\"VCAP_APPLICATION", utf8 "\x7b\"a\":\"b\"\x7d")], by decide, by decide⟩

/-- C2 (code evaluated at the failing inputs): processVars panics on a line that starts with
a closing brace while no block is open, on a block with no header line, on a header line
shorter than two bytes and on a header line without a double quote; it returns the empty
mapping on empty input and on an unterminated block. -/
theorem processVars_panics_on_malformed_input :
    processVars [utf8 "\x7d"] = Except.error Panic.indexOutOfRange ∧
    processVars [utf8 "\x7b", utf8 "\x7d"] = Except.error Panic.indexOutOfRange ∧
    processVars [utf8 "\x7b", utf8 "x", utf8 "\x7d"] = Except.error Panic.sliceBoundsOutOfRange ∧
    processVars [utf8 "\x7b", utf8 "  NAME: \x7b", utf8 "\x7d"] =
      Except.error Panic.sliceBoundsOutOfRange ∧
    processVars [] = Except.ok [] ∧
    processVars [utf8 "\x7b", utf8 "  \"NAME\": \x7b", utf8 "x"] = Except.ok [] :=
  ⟨by decide, by decide, by decide, by decide, by decide, by decide⟩

/-- C3 (code evaluated at the failing input): no line of the input starts with an opening
brace, yet processVars does not return the empty mapping: it panics on the line that starts
with a closing brace. -/
theorem processVars_stray_close_panics :
    [utf8 "noise", utf8 "\x7d"].any (fun l => HasPrefix l (utf8 "\x7b")) = false ∧
    processVars [utf8 "noise", utf8 "\x7d"] = Except.error Panic.indexOutOfRange :=
  ⟨by decide, by decide⟩

/-- Without a line that starts with an opening brace, processVars returns the empty mapping
exactly when no line starts with a closing brace, and panics otherwise. -/
theorem processVars_no_open (ls : List GoString)
    (h : ∀ l ∈ ls, HasPrefix l (utf8 "\x7b") = false) :
    processVars ls =
      if ls.any (fun l => HasPrefix l (utf8 "\x7d")) then Except.error Panic.indexOutOfRange
      else Except.ok [] := by
  unfold processVars
  rw [processVarsLoop_no_open ls [] h]
  cases ls.any (fun l => HasPrefix l (utf8 "\x7d")) <;> rfl

/-- Two blocks do not contaminate each other: when the code reads the distinct texts `n1` and
`n2` from the headers of two well-formed blocks, processVars on the lines of the first
followed by the lines of the second returns two entries, under `n1` and `n2`, each with the
value that processVars gives it on that block alone. -/
theorem processVars_two_blocks (b1 b2 : Block) (n1 n2 : GoString)
    (h1 : b1.WellFormed n1) (h2 : b2.WellFormed n2) (hne : n1 ≠ n2) :
    ∃ m1 m2 m v1 v2,
      processVars b1.lines = Except.ok m1 ∧
      processVars b2.lines = Except.ok m2 ∧
      processVars (b1.lines ++ b2.lines) = Except.ok m ∧
      (∀ k, k ∈ mapKeys m ↔ k = n1 ∨ k = n2) ∧
      m.length = 2 ∧
      mapGet m1 n1 = some v1 ∧ mapGet m n1 = some v1 ∧
      mapGet m2 n2 = some v2 ∧ mapGet m n2 = some v2 := by
  refine ⟨[(n1, varValueOf (b1.header :: b1.interior))],
    [(n2, varValueOf (b2.header :: b2.interior))],
    [(n1, varValueOf (b1.header :: b1.interior)), (n2, varValueOf (b2.header :: b2.interior))],
    varValueOf (b1.header :: b1.interior), varValueOf (b2.header :: b2.interior), ?_, ?_, ?_, ?_,
    ?_, ?_, ?_, ?_, ?_⟩
  · simp [processVars, processVarsLoop_block b1 n1 h1, mapSet]
  · simp [processVars, processVarsLoop_block b2 n2 h2, mapSet]
  · simp [processVars, processVarsLoop_append, processVarsLoop_block b1 n1 h1,
      processVarsLoop_block b2 n2 h2, mapSet, hne]
  · intro k
    simp [mapKeys]
  · rfl
  · simp [mapGet]
  · simp [mapGet]
  · simp [mapGet]
  · simp [mapGet, hne]

/-- The preceding statement on two blocks whose headers are `  "A": \x7b` and
`  "B": \x7b`. -/
theorem processVars_two_blocks_witness :
    ∃ m1 m2 m v1 v2,
      processVars [utf8 "\x7b", utf8 "  \"A\": \x7b", utf8 "  1", utf8 "\x7d"] = Except.ok m1 ∧
      processVars [utf8 "\x7b", utf8 "  \"B\": \x7b", utf8 "  2", utf8 " 3 ", utf8 "\x7d"] =
        Except.ok m2 ∧
      processVars ([utf8 "\x7b", utf8 "  \"A\": \x7b", utf8 "  1", utf8 "\x7d"] ++
        [utf8 "\x7b", utf8 "  \"B\": \x7b", utf8 "  2", utf8 " 3 ", utf8 "\x7d"]) = Except.ok m ∧
      (∀ k, k ∈ mapKeys m ↔ k = utf8 "\"A" ∨ k = utf8 "\"B") ∧
      m.length = 2 ∧
      mapGet m1 (utf8 "\"A") = some v1 ∧ mapGet m (utf8 "\"A") = some v1 ∧
      mapGet m2 (utf8 "\"B") = some v2 ∧ mapGet m (utf8 "\"B") = some v2 :=
  processVars_two_blocks
    { opening := utf8 "\x7b", header := utf8 "  \"A\": \x7b", interior := [utf8 "  1"],
      closing := utf8 "\x7d" }
    { opening := utf8 "\x7b", header := utf8 "  \"B\": \x7b", interior := [utf8 "  2", utf8 " 3 "],
      closing := utf8 "\x7d" }
    (utf8 "\"A") (utf8 "\"B")
    (by unfold Block.WellFormed; decide) (by unfold Block.WellFormed; decide) (by decide)

/-- C4 (code evaluated at the failing input): for the two well-formed blocks named A and B,
with the headers `  "A": \x7b` and `  "B": \x7b`, processVars on the lines of the first
followed by the lines of the second returns two entries whose values are those that
processVars gives on each block alone, but whose keys are not the names A and B: each key
keeps the opening double quote of its header. -/
theorem processVars_blocks_A_B_keys_keep_quote :
    ∃ m mA mB,
      processVars ([utf8 "\x7b", utf8 "  \"A\": \x7b", utf8 "  1", utf8 "\x7d"] ++
        [utf8 "\x7b", utf8 "  \"B\": \x7b", utf8 "  2", utf8 " 3 ", utf8 "\x7d"]) = Except.ok m ∧
      processVars [utf8 "\x7b", utf8 "  \"A\": \x7b", utf8 "  1", utf8 "\x7d"] = Except.ok mA ∧
      processVars [utf8 "\x7b", utf8 "  \"B\": \x7b", utf8 "  2", utf8 " 3 ", utf8 "\x7d"] =
        Except.ok mB ∧
      mapKeys m = [utf8 "\"A", utf8 "\"B"] ∧
      utf8 "A" ∉ mapKeys m ∧ utf8 "B" ∉ mapKeys m ∧
      mapGet m (utf8 "A") = none ∧ mapGet m (utf8 "B") = none ∧
      m.map Prod.snd = mA.map Prod.snd ++ mB.map Prod.snd ∧
      m.map Prod.snd = [utf8 "\x7b1", utf8 "\x7b23"] :=
  ⟨[(utf8 "\"A", utf8 "\x7b1"), (utf8 "\"B", utf8 "\x7b23")], [(utf8 "\"A", utf8 "\x7b1")],
    [(utf8 "\"B", utf8 "\x7b23")], by decide, by decide, by decide, by decide, by decide,
    by decide, by decide, by decide, by decide, by decide⟩

/-! ## Lemmas on ArgConsumer -/

/-- Adding one to an index below the argument count does not pass the count, wrap-around
included. -/
theorem wrapInt_succ_le (i n : Int) (h0 : 0 ≤ i) (hn : i < n) : wrapInt (i + 1) ≤ n := by
  unfold wrapInt
  omega

/-- Below the largest `int`, adding one to a non-negative index is exact. -/
theorem wrapInt_succ_eq (i : Int) (h0 : 0 ≤ i) (hm : i < maxInt) : wrapInt (i + 1) = i + 1 := by
  unfold wrapInt maxInt at *
  omega

/-- An index expression that succeeds has an index within range and yields that element. -/
theorem indexSlice_ok {α : Type} (xs : List α) (i : Int) (x : α)
    (h : indexSlice xs i = Except.ok x) :
    0 ≤ i ∧ i < (xs.length : Int) ∧ xs.get? i.toNat = some x := by
  unfold indexSlice at h
  split at h
  · cases h
  · rename_i hi
    cases hx : xs.get? i.toNat with
    | none => rw [hx] at h; cases h
    | some y =>
      rw [hx] at h
      cases h
      have hlt : i.toNat < xs.length := by
        rcases List.get?_eq_some.mp hx with ⟨hl, _⟩
        exact hl
      refine ⟨by omega, by omega, rfl⟩

/-- An index expression on an index within range succeeds. -/
theorem indexSlice_of_get? {α : Type} (xs : List α) (i : Int) (x : α) (h0 : 0 ≤ i)
    (hx : xs.get? i.toNat = some x) : indexSlice xs i = Except.ok x := by
  unfold indexSlice
  rw [if_neg (by omega), hx]

/-- The diagnostic that `Consume` issues on a miss. -/
theorem Consume_miss (ac : ArgConsumer) (i : Int) (d : GoString)
    (h : ((ac.positionalArgs.length : Int) ≤ i ∧ i < maxInt) ∨
      (0 ≤ i ∧ ac.positionalArgs.get? i.toNat = some (utf8 ""))) :
    Consume ac i d =
      Except.ok
        { value := utf8 ""
          state := ac
          diagnosed :=
            [{ message := utf8 "Incorrect usage: " ++ d ++ utf8 " not specified."
               command := ac.command }] } := by
  rcases h with ⟨hge, hmax⟩ | ⟨h0, hs⟩
  · unfold Consume
    rw [if_pos (by rw [wrapInt_succ_eq i (by omega) hmax]; omega)]
  · have hlt : i.toNat < ac.positionalArgs.length := (List.get?_eq_some.mp hs).1
    unfold Consume
    rw [if_neg (by have := wrapInt_succ_le i ac.positionalArgs.length h0 (by omega); omega),
      indexSlice_of_get? _ i _ h0 hs]
    simp

/-- The silent return of `ConsumeOptional` on a miss. -/
theorem ConsumeOptional_miss (ac : ArgConsumer) (i : Int) (d : GoString)
    (h : ((ac.positionalArgs.length : Int) ≤ i ∧ i < maxInt) ∨
      (0 ≤ i ∧ ac.positionalArgs.get? i.toNat = some (utf8 ""))) :
    ConsumeOptional ac i d = Except.ok { value := utf8 "", state := ac, diagnosed := [] } := by
  rcases h with ⟨hge, hmax⟩ | ⟨h0, hs⟩
  · unfold ConsumeOptional
    rw [if_pos (by rw [wrapInt_succ_eq i (by omega) hmax]; omega)]
  · have hlt : i.toNat < ac.positionalArgs.length := (List.get?_eq_some.mp hs).1
    unfold ConsumeOptional
    rw [if_neg (by have := wrapInt_succ_le i ac.positionalArgs.length h0 (by omega); omega),
      indexSlice_of_get? _ i _ h0 hs]
    simp

/-- On every consumer and index `ConsumeOptional` does what `Consume` does, panics included,
except that it makes no invocation of the diagnostic callback. -/
theorem ConsumeOptional_eq_Consume_silenced (ac : ArgConsumer) (i : Int) (d : GoString) :
    ConsumeOptional ac i d =
      match Consume ac i d with
      | Except.error e => Except.error e
      | Except.ok out => Except.ok { value := out.value, state := out.state, diagnosed := [] } := by
  unfold ConsumeOptional Consume
  split
  · rfl
  · cases indexSlice ac.positionalArgs i with
    | error e => rfl
    | ok s =>
      by_cases hs : s = utf8 ""
      · simp [hs]
      · simp [hs]

/-- A call of `Consume` that returns changes neither the arguments nor the command, keeps
every consumed index, adds at most its own index, and adds it only when that index is within
range. -/
theorem Consume_ok (ac : ArgConsumer) (i : Int) (d : GoString) (out : Outcome)
    (hc : Consume ac i d = Except.ok out) :
    out.state.positionalArgs = ac.positionalArgs ∧ out.state.command = ac.command ∧
    (out.state.consumed = ac.consumed ∨
      (0 ≤ i ∧ i < (ac.positionalArgs.length : Int) ∧
        out.state.consumed = insert i ac.consumed)) := by
  unfold Consume at hc
  split at hc
  · cases hc
    exact ⟨rfl, rfl, Or.inl rfl⟩
  · cases hx : indexSlice ac.positionalArgs i with
    | error e => rw [hx] at hc; cases hc
    | ok s =>
      rw [hx] at hc
      obtain ⟨h0, hlt, _⟩ := indexSlice_ok _ _ _ hx
      by_cases hs : s = utf8 ""
      · simp only [hs, if_true] at hc
        cases hc
        exact ⟨rfl, rfl, Or.inl rfl⟩
      · simp only [hs, if_false] at hc
        cases hc
        exact ⟨rfl, rfl, Or.inr ⟨h0, hlt, rfl⟩⟩

/-- The same for any call, `ConsumeOptional` included. -/
theorem Call.run_ok (ac : ArgConsumer) (c : Call) (out : Outcome)
    (h : c.run ac = Except.ok out) :
    out.state.positionalArgs = ac.positionalArgs ∧ out.state.command = ac.command ∧
    (out.state.consumed = ac.consumed ∨
      ∃ i : Int, 0 ≤ i ∧ i < (ac.positionalArgs.length : Int) ∧
        out.state.consumed = insert i ac.consumed) := by
  cases c with
  | consume i d =>
    obtain ⟨h1, h2, h3⟩ := Consume_ok ac i d out h
    exact ⟨h1, h2, h3.imp id (fun h4 => ⟨i, h4⟩)⟩
  | consumeOptional i d =>
    simp only [Call.run] at h
    rw [ConsumeOptional_eq_Consume_silenced] at h
    cases hc : Consume ac i d with
    | error e => rw [hc] at h; cases h
    | ok out2 =>
      rw [hc] at h
      cases h
      obtain ⟨h1, h2, h3⟩ := Consume_ok ac i d out2 hc
      exact ⟨h1, h2, h3.imp id (fun h4 => ⟨i, h4⟩)⟩

/-- The invariant of the consumers a program can hold: the command is argument 0, index 0 is
consumed, and every consumed index is the index of an argument. -/
theorem reachable_invariant (ac : ArgConsumer) (h : Reachable ac) :
    ac.positionalArgs.head? = some ac.command ∧ (0 : Int) ∈ ac.consumed ∧
    ∀ i ∈ ac.consumed, 0 ≤ i ∧ i < (ac.positionalArgs.length : Int) := by
  induction h with
  | new args ac hnew =>
    unfold NewArgConsumer at hnew
    cases hx : indexSlice args 0 with
    | error e => rw [hx] at hnew; cases hnew
    | ok c =>
      rw [hx] at hnew
      cases hnew
      obtain ⟨_, hlt, hget⟩ := indexSlice_ok _ _ _ hx
      cases args with
      | nil => simp at hlt
      | cons a rest =>
        simp at hget
        subst hget
        refine ⟨rfl, by simp, ?_⟩
        intro i hi
        simp at hi
        subst hi
        simp
  | step ac c out _ hrun ih =>
    obtain ⟨hargs, hcmd, hcons⟩ := Call.run_ok ac c out hrun
    obtain ⟨ih1, ih2, ih3⟩ := ih
    rw [hargs, hcmd]
    refine ⟨ih1, ?_, ?_⟩
    · rcases hcons with h1 | ⟨i, _, _, h1⟩
      · rw [h1]; exact ih2
      · rw [h1]; exact Finset.mem_insert_of_mem ih2
    · intro j hj
      rcases hcons with h1 | ⟨i, h0, hlt, h1⟩
      · rw [h1] at hj; exact ih3 j hj
      · rw [h1] at hj
        rcases Finset.mem_insert.mp hj with rfl | hj2
        · exact ⟨h0, hlt⟩
        · exact ih3 j hj2

/-- When every consumed index is the index of an argument, fewer indices are consumed than
there are arguments exactly when some argument index is not consumed. -/
theorem card_lt_length_iff (consumed : Finset Int) (n : Nat)
    (hsub : ∀ i ∈ consumed, 0 ≤ i ∧ i < (n : Int)) :
    consumed.card < n ↔ ∃ j : Nat, j < n ∧ (j : Int) ∉ consumed := by
  have hIco : consumed ⊆ Finset.Ico (0 : Int) n := by
    intro i hi
    exact Finset.mem_Ico.mpr (hsub i hi)
  have hcard : (Finset.Ico (0 : Int) n).card = n := by simp
  constructor
  · intro hlt
    by_contra hall
    push_neg at hall
    have hsup : Finset.Ico (0 : Int) n ⊆ consumed := by
      intro i hi
      obtain ⟨h0, hn⟩ := Finset.mem_Ico.mp hi
      have := hall i.toNat (by omega)
      rwa [Int.toNat_of_nonneg h0] at this
    have := Finset.card_le_card hsup
    omega
  · rintro ⟨j, hj, hnot⟩
    have hss : consumed ⊂ Finset.Ico (0 : Int) n := by
      refine Finset.ssubset_iff_subset_ne.mpr ⟨hIco, ?_⟩
      intro heq
      apply hnot
      rw [heq]
      exact Finset.mem_Ico.mpr ⟨by omega, by omega⟩
    have := Finset.card_lt_card hss
    omega

/-- The slice `extra` holds, in order, the arguments whose index is not consumed. -/
theorem extraFrom_eq_filter (consumed : Finset Int) (start : Nat) (args : List GoString) :
    extraFrom consumed start args =
      ((args.enumFrom start).filter (fun p => decide ((p.1 : Int) ∉ consumed))).map Prod.snd := by
  induction args generalizing start with
  | nil => rfl
  | cons a rest ih =>
    by_cases hm : (start : Int) ∈ consumed
    · simp [extraFrom, List.enumFrom, hm, ih]
    · simp [extraFrom, List.enumFrom, hm, ih]

/-- The slice `extra` is non-empty exactly when some visited index is not consumed. -/
theorem extraFrom_length_pos_iff (consumed : Finset Int) (start : Nat) (args : List GoString) :
    1 ≤ (extraFrom consumed start args).length ↔
      ∃ j : Nat, j < args.length ∧ ((start + j : Nat) : Int) ∉ consumed := by
  induction args generalizing start with
  | nil => simp [extraFrom]
  | cons a rest ih =>
    by_cases hm : (start : Int) ∈ consumed
    · simp only [extraFrom, hm, if_true, ih (start + 1)]
      constructor
      · rintro ⟨j, hj, hnot⟩
        exact ⟨j + 1, by simp; omega, by rwa [show start + (j + 1) = start + 1 + j by omega]⟩
      · rintro ⟨j, hj, hnot⟩
        cases j with
        | zero => exact absurd hm (by simpa using hnot)
        | succ k =>
          exact ⟨k, by simp at hj; omega, by rwa [show start + 1 + k = start + (k + 1) by omega]⟩
    · simp only [extraFrom, hm, if_false, List.length_cons]
      constructor
      · intro _
        exact ⟨0, by simp, by simpa using hm⟩
      · intro _
        omega


/-- A call that returns a non-empty string has consumed its index. -/
theorem Call.run_value_ne_empty (ac : ArgConsumer) (c : Call) (out : Outcome)
    (h : c.run ac = Except.ok out) (hv : out.value ≠ utf8 "") :
    c.arg ∈ out.state.consumed := by
  have key : ∀ (i : Int) (d : GoString) (o : Outcome), Consume ac i d = Except.ok o →
      o.value ≠ utf8 "" → i ∈ o.state.consumed := by
    intro i d o hc hne
    unfold Consume at hc
    split at hc
    · cases hc
      exact absurd rfl hne
    · cases hx : indexSlice ac.positionalArgs i with
      | error e => rw [hx] at hc; cases hc
      | ok s =>
        rw [hx] at hc
        by_cases hs : s = utf8 ""
        · simp only [hs, if_true] at hc
          cases hc
          exact absurd rfl hne
        · simp only [hs, if_false] at hc
          cases hc
          exact Finset.mem_insert_self i ac.consumed
  cases c with
  | consume i d => exact key i d out h hv
  | consumeOptional i d =>
    simp only [Call.run] at h
    rw [ConsumeOptional_eq_Consume_silenced] at h
    cases hc : Consume ac i d with
    | error e => rw [hc] at h; cases h
    | ok out2 =>
      rw [hc] at h
      cases h
      exact key i d out2 hc hv

/-! ## Theorems on ArgConsumer -/

/-- C5: for every consumer and every index within range that holds a non-empty argument,
`Consume` returns exactly that argument, marks the index as consumed, leaves the consumed
status of every other index (and the arguments and the command) unchanged, and makes no
invocation of the diagnostic callback. -/
theorem Consume_present (ac : ArgConsumer) (i : Int) (d s : GoString) (h0 : 0 ≤ i)
    (hs : ac.positionalArgs.get? i.toNat = some s) (hne : s ≠ utf8 "") :
    ∃ out, Consume ac i d = Except.ok out ∧ out.value = s ∧ i ∈ out.state.consumed ∧
      (∀ j, j ≠ i → (j ∈ out.state.consumed ↔ j ∈ ac.consumed)) ∧ out.diagnosed = [] ∧
      out.state.positionalArgs = ac.positionalArgs ∧ out.state.command = ac.command := by
  have hlt : i.toNat < ac.positionalArgs.length := (List.get?_eq_some.mp hs).1
  refine ⟨{ value := s, state := { ac with consumed := insert i ac.consumed }, diagnosed := [] },
    ?_, rfl, Finset.mem_insert_self i ac.consumed, ?_, rfl, rfl, rfl⟩
  · unfold Consume
    rw [if_neg (by have := wrapInt_succ_le i ac.positionalArgs.length h0 (by omega); omega),
      indexSlice_of_get? _ i _ h0 hs]
    simp [hne]
  · intro j hj
    simp [Finset.mem_insert, hj]

/-- Witness for C5: consuming index 1 of the example consumer. -/
theorem Consume_present_witness :
    ∃ out, Consume exampleConsumer 1 (utf8 "application name") = Except.ok out ∧
      out.value = utf8 "cf-app" ∧ (1 : Int) ∈ out.state.consumed ∧
      (∀ j, j ≠ (1 : Int) → (j ∈ out.state.consumed ↔ j ∈ exampleConsumer.consumed)) ∧
      out.diagnosed = [] ∧
      out.state.positionalArgs = exampleConsumer.positionalArgs ∧
      out.state.command = exampleConsumer.command :=
  Consume_present exampleConsumer 1 (utf8 "application name") (utf8 "cf-app") (by decide)
    (by decide) (by decide)

/-- C6 (code evaluated at the failing input): the largest `int` is an index beyond the
argument count of the example consumer, and `Consume` on it panics instead of issuing its
diagnostic, because `arg+1` wraps around to the smallest `int` and the length test lets the
index expression run. -/
theorem Consume_maxInt_panics :
    NewArgConsumer [utf8 "push-tunnel-app", utf8 "cf-app", utf8 "spring-app"] =
      Except.ok exampleConsumer ∧
    (exampleConsumer.positionalArgs.length : Int) ≤ maxInt ∧
    wrapInt (maxInt + 1) = -(2 ^ 63) ∧
    Consume exampleConsumer maxInt (utf8 "application name") =
      Except.error Panic.indexOutOfRange :=
  ⟨by decide, by decide, by decide, by decide⟩

/-- C7 (code evaluated at the failing input): on the largest `int`, an index beyond the
argument count, `ConsumeOptional` panics instead of returning the empty string. -/
theorem ConsumeOptional_maxInt_panics :
    (exampleConsumer.positionalArgs.length : Int) ≤ maxInt ∧
    ConsumeOptional exampleConsumer maxInt (utf8 "application name") =
      Except.error Panic.indexOutOfRange :=
  ⟨by decide, by decide⟩

/-- C8 (code evaluated at the failing input): on the negative index -1 both `Consume` and
`ConsumeOptional` panic, whereas on an index within range that holds the empty string
`Consume` issues its diagnostic and `ConsumeOptional` returns silently. -/
theorem Consume_negative_index_panics :
    Consume emptyArgConsumer (-1) (utf8 "application name") =
      Except.error Panic.indexOutOfRange ∧
    ConsumeOptional emptyArgConsumer (-1) (utf8 "application name") =
      Except.error Panic.indexOutOfRange ∧
    Consume emptyArgConsumer 1 (utf8 "application name") =
      Except.ok
        { value := utf8 ""
          state := emptyArgConsumer
          diagnosed :=
            [{ message := utf8 "Incorrect usage: application name not specified."
               command := utf8 "get-local-env" }] } ∧
    ConsumeOptional emptyArgConsumer 1 (utf8 "application name") =
      Except.ok { value := utf8 "", state := emptyArgConsumer, diagnosed := [] } :=
  ⟨by decide, by decide, by decide, by decide⟩

/-- C9: when `CheckAllConsumed` runs on a consumer that a program can hold and k ≥ 1
arguments are unconsumed, it invokes the diagnostic callback exactly once, with the command
(which is argument 0) and the message "Incorrect usage: invalid argument 'J'." when k = 1
and "Incorrect usage: invalid arguments 'J'." when k ≥ 2, where J joins with single spaces
the values of exactly the arguments whose index is unconsumed, in their original order. -/
theorem CheckAllConsumed_reports_leftovers (ac : ArgConsumer) (hr : Reachable ac)
    (hk : 1 ≤ (extraArgs ac).length) :
    CheckAllConsumed ac =
      [{ message :=
           utf8 "Incorrect usage: invalid " ++
             (if (extraArgs ac).length = 1 then utf8 "argument" else utf8 "arguments") ++
             utf8 " \x27" ++ Join (extraArgs ac) (utf8 " ") ++ utf8 "\x27."
         command := ac.command }] ∧
    ac.positionalArgs.head? = some ac.command ∧
    extraArgs ac =
      ((ac.positionalArgs.enum.filter (fun p => decide ((p.1 : Int) ∉ ac.consumed))).map
        Prod.snd) := by
  obtain ⟨hcmd, _, hsub⟩ := reachable_invariant ac hr
  have hguard : ac.consumed.card < ac.positionalArgs.length := by
    rw [card_lt_length_iff ac.consumed ac.positionalArgs.length hsub]
    obtain ⟨j, hj, hnot⟩ := (extraFrom_length_pos_iff ac.consumed 0 ac.positionalArgs).mp hk
    exact ⟨j, hj, by simpa using hnot⟩
  refine ⟨?_, hcmd, ?_⟩
  · unfold CheckAllConsumed invalidArgsMessage
    rw [if_pos hguard]
    by_cases h1 : (extraArgs ac).length = 1
    · simp [h1]
    · have h2 : (extraArgs ac).length > 1 := by omega
      simp [h1, h2]
  · unfold extraArgs
    rw [extraFrom_eq_filter]
    rfl

/-- Witness for C9: straight after `NewArgConsumer` two arguments of the example consumer
are unconsumed, and the message is in the plural and names both in order. -/
theorem CheckAllConsumed_reports_leftovers_witness :
    Reachable exampleConsumer ∧ 1 ≤ (extraArgs exampleConsumer).length ∧
    CheckAllConsumed exampleConsumer =
      [{ message := utf8 "Incorrect usage: invalid arguments \x27cf-app spring-app\x27."
         command := utf8 "push-tunnel-app" }] :=
  ⟨Reachable.new [utf8 "push-tunnel-app", utf8 "cf-app", utf8 "spring-app"] exampleConsumer
      (by decide),
    by decide,
    (CheckAllConsumed_reports_leftovers exampleConsumer
      (Reachable.new [utf8 "push-tunnel-app", utf8 "cf-app", utf8 "spring-app"] exampleConsumer
        (by decide))
      (by decide)).1.trans (by decide)⟩

/-- C10: in every consumer reachable from `NewArgConsumer` by calls of `Consume` and
`ConsumeOptional`, index 0 is consumed and every consumed index is the index of an argument;
hence `CheckAllConsumed` invokes the diagnostic callback if and only if some argument index
is unconsumed; argument 0 is never among the reported leftovers; once every index from 1 to
n-1 is consumed `CheckAllConsumed` makes no invocation; and a further call that returns keeps
the consumer reachable, keeps every consumed index consumed, and marks its own index when it
returns a non-empty argument. -/
theorem reachable_checkAllConsumed_exact (ac : ArgConsumer) (hr : Reachable ac) :
    (0 : Int) ∈ ac.consumed ∧
    (∀ i ∈ ac.consumed, 0 ≤ i ∧ i < (ac.positionalArgs.length : Int)) ∧
    (CheckAllConsumed ac ≠ [] ↔
      ∃ j : Nat, j < ac.positionalArgs.length ∧ (j : Int) ∉ ac.consumed) ∧
    extraArgs ac = extraFrom ac.consumed 1 ac.positionalArgs.tail ∧
    ((∀ j : Nat, 1 ≤ j → j < ac.positionalArgs.length → (j : Int) ∈ ac.consumed) →
      CheckAllConsumed ac = []) ∧
    (∀ (c : Call) (out : Outcome), c.run ac = Except.ok out →
      Reachable out.state ∧ ac.consumed ⊆ out.state.consumed ∧
      (out.value ≠ utf8 "" → c.arg ∈ out.state.consumed)) := by
  obtain ⟨hcmd, h0, hsub⟩ := reachable_invariant ac hr
  have hiff := card_lt_length_iff ac.consumed ac.positionalArgs.length hsub
  refine ⟨h0, hsub, ?_, ?_, ?_, ?_⟩
  · rw [← hiff]
    unfold CheckAllConsumed
    by_cases hg : ac.consumed.card < ac.positionalArgs.length
    · simp [hg]
    · simp [hg]
  · unfold extraArgs
    cases hargs : ac.positionalArgs with
    | nil => rw [hargs] at hcmd; simp at hcmd
    | cons a rest => simp [extraFrom, h0]
  · intro hall
    have hng : ¬ ac.consumed.card < ac.positionalArgs.length := by
      rw [hiff]
      rintro ⟨j, hj, hnot⟩
      cases j with
      | zero => exact hnot (by simpa using h0)
      | succ k => exact hnot (hall (k + 1) (by omega) hj)
    unfold CheckAllConsumed
    rw [if_neg hng]
  · intro c out hrun
    refine ⟨Reachable.step ac c out hr hrun, ?_, Call.run_value_ne_empty ac c out hrun⟩
    obtain ⟨_, _, hcons⟩ := Call.run_ok ac c out hrun
    rcases hcons with h1 | ⟨i, _, _, h1⟩
    · rw [h1]
    · rw [h1]
      exact Finset.subset_insert i ac.consumed

/-- Witness for C10: the example consumer after index 1 was consumed twice and index 2
once; no index is unconsumed and `CheckAllConsumed` makes no invocation. -/
theorem reachable_checkAllConsumed_exact_witness :
    Reachable { exampleConsumer with consumed := {0, 1, 2} } ∧
    CheckAllConsumed { exampleConsumer with consumed := {0, 1, 2} } = [] :=
  have hnew : Reachable exampleConsumer :=
    Reachable.new [utf8 "push-tunnel-app", utf8 "cf-app", utf8 "spring-app"] exampleConsumer
      (by decide)
  have h1 : Reachable { exampleConsumer with consumed := {0, 1} } :=
    Reachable.step exampleConsumer (Call.consume 1 (utf8 "application name"))
      { value := utf8 "cf-app", state := { exampleConsumer with consumed := {0, 1} },
        diagnosed := [] }
      hnew (by decide)
  have h2 : Reachable { exampleConsumer with consumed := {0, 1} } :=
    Reachable.step { exampleConsumer with consumed := {0, 1} }
      (Call.consumeOptional 1 (utf8 "application name"))
      { value := utf8 "cf-app", state := { exampleConsumer with consumed := {0, 1} },
        diagnosed := [] }
      h1 (by decide)
  have h3 : Reachable { exampleConsumer with consumed := {0, 1, 2} } :=
    Reachable.step { exampleConsumer with consumed := {0, 1} }
      (Call.consume 2 (utf8 "application name"))
      { value := utf8 "spring-app", state := { exampleConsumer with consumed := {0, 1, 2} },
        diagnosed := [] }
      h2 (by decide)
  ⟨h3, (reachable_checkAllConsumed_exact _ h3).2.2.2.2.1 (by decide)⟩

/-! ## Lemmas on ParsePluginVersion -/

/-- The byte of a decimal digit is the byte of the character 0 plus the digit. -/
theorem digitByte_toNat (d : Nat) (h : d < 10) : (digitByte d).toNat = 48 + d := by
  unfold digitByte
  simp [Nat.toUInt8, UInt8.toNat, UInt8.ofNat, Fin.ofNat]
  omega

/-- The byte of a decimal digit is neither a dot nor a sign. -/
theorem digitByte_ne (d : Nat) (h : d < 10) :
    digitByte d ≠ 46 ∧ digitByte d ≠ 45 ∧ digitByte d ≠ 43 := by
  have h1 := digitByte_toNat d h
  have e46 : (46 : UInt8).toNat = 46 := by decide
  have e45 : (45 : UInt8).toNat = 45 := by decide
  have e43 : (43 : UInt8).toNat = 43 := by decide
  refine ⟨?_, ?_, ?_⟩ <;> intro h2 <;> rw [h2] at h1 <;> omega

/-- The digit loop on a run of decimal digits after the value `n`. -/
theorem parseUintLoop_digits (ds : List Nat) (hds : ∀ d ∈ ds, d < 10) (n : Nat)
    (hn : n ≤ 2 ^ 64 - 1) :
    parseUintLoop (ds.map digitByte) n =
      if n * 10 ^ ds.length + Nat.ofDigits 10 ds.reverse ≤ 2 ^ 64 - 1 then
        Except.ok (n * 10 ^ ds.length + Nat.ofDigits 10 ds.reverse)
      else Except.error NumError.errRange := by
  induction ds generalizing n with
  | nil =>
    simp only [List.map_nil, parseUintLoop, List.length_nil, pow_zero, Nat.mul_one,
      List.reverse_nil, Nat.ofDigits_nil, Nat.add_zero]
    rw [if_pos hn]
  | cons d ds ih =>
    have hd : d < 10 := hds d (List.mem_cons_self d ds)
    have hrest : ∀ x ∈ ds, x < 10 := fun x hx => hds x (List.mem_cons_of_mem d hx)
    have hval : n * 10 ^ (d :: ds).length + Nat.ofDigits 10 (d :: ds).reverse =
        (n * 10 + d) * 10 ^ ds.length + Nat.ofDigits 10 ds.reverse := by
      simp only [List.reverse_cons, List.length_cons, Nat.ofDigits_append, List.length_reverse,
        Nat.ofDigits_singleton]
      ring
    have hpos : 1 ≤ 10 ^ ds.length := Nat.one_le_pow _ _ (by norm_num)
    rw [hval]
    simp only [List.map_cons, parseUintLoop, digitByte_toNat d hd]
    rw [if_pos (by omega), show 48 + d - 48 = d by omega]
    by_cases hbig : n * 10 + d > 2 ^ 64 - 1
    · rw [if_pos hbig, if_neg]
      have : n * 10 + d ≤ (n * 10 + d) * 10 ^ ds.length := Nat.le_mul_of_pos_right _ hpos
      omega
    · rw [if_neg hbig, ih hrest (n * 10 + d) (by omega)]

/-- What `strconv.Atoi` returns on a well-formed literal: its value when that is an `int`,
and a range error otherwise. -/
theorem Atoi_literal (l : Literal) (hl : l.WellFormed) :
    Atoi l.text =
      if minInt ≤ l.value ∧ l.value ≤ maxInt then Except.ok l.value
      else Except.error NumError.errRange := by
  obtain ⟨sign, digits⟩ := l
  obtain ⟨hne, hds⟩ := hl
  simp only at hne hds
  have hloop := parseUintLoop_digits digits hds 0 (by norm_num)
  simp only [Nat.zero_mul, Nat.zero_add] at hloop
  cases digits with
  | nil => exact absurd rfl hne
  | cons d ds =>
    have hd := digitByte_ne d (hds d (List.mem_cons_self d ds))
    generalize hV : Nat.ofDigits 10 (d :: ds).reverse = V at hloop
    cases sign with
    | none =>
      simp only [Literal.text, Literal.value, List.nil_append, List.map_cons, hV]
      unfold Atoi
      simp only [hd.2.1, hd.2.2, or_self, if_false, decide_False]
      rw [if_neg (by simp)]
      rw [← List.map_cons, hloop]
      unfold minInt maxInt
      by_cases h64 : V ≤ 2 ^ 64 - 1
      · rw [if_pos h64]
        by_cases h63 : V ≥ 2 ^ 63
        · simp only [h63, and_self, if_true]
          rw [if_neg (by omega)]
        · simp only [h63, and_false, if_false, Bool.false_eq_true, false_and]
          rw [if_pos (by omega)]
      · rw [if_neg h64, if_neg (by omega)]
    | minus =>
      simp only [Literal.text, Literal.value, List.singleton_append, List.map_cons, hV]
      unfold Atoi
      simp only [or_true, if_true, decide_True]
      rw [if_neg (by simp)]
      rw [← List.map_cons, hloop]
      unfold minInt maxInt
      by_cases h64 : V ≤ 2 ^ 64 - 1
      · rw [if_pos h64]
        by_cases h63 : V > 2 ^ 63
        · simp only [h63, and_self, if_true, Bool.true_eq_false, false_and, if_false]
          rw [if_neg (by omega)]
        · simp only [h63, and_false, if_false, Bool.true_eq_false, false_and]
          rw [if_pos (by omega)]
      · rw [if_neg h64, if_neg (by omega)]
    | plus =>
      simp only [Literal.text, Literal.value, List.singleton_append, List.map_cons, hV]
      unfold Atoi
      have h4345 : (43 : UInt8) ≠ 45 := by decide
      simp only [true_or, if_true, h4345, decide_False]
      rw [if_neg (by simp)]
      rw [← List.map_cons, hloop]
      unfold minInt maxInt
      by_cases h64 : V ≤ 2 ^ 64 - 1
      · rw [if_pos h64]
        by_cases h63 : V ≥ 2 ^ 63
        · simp only [h63, and_self, if_true]
          rw [if_neg (by omega)]
        · simp only [h63, and_false, if_false, Bool.false_eq_true, false_and]
          rw [if_pos (by omega)]
      · rw [if_neg h64, if_neg (by omega)]

/-- A piece without the separator, followed by the separator, is the first piece. -/
theorem Split_append (t rest : GoString) (sep : UInt8) (ht : sep ∉ t) :
    Split (t ++ sep :: rest) sep = t :: Split rest sep := by
  induction t with
  | nil => simp [Split]
  | cons c t ih =>
    have hc : c ≠ sep := fun h => ht (by simp [h])
    have ht2 : sep ∉ t := fun h => ht (List.mem_cons_of_mem c h)
    simp [Split, hc, ih ht2]

/-- A string without the separator is a single piece. -/
theorem Split_single (t : GoString) (sep : UInt8) (ht : sep ∉ t) : Split t sep = [t] := by
  induction t with
  | nil => simp [Split]
  | cons c t ih =>
    have hc : c ≠ sep := fun h => ht (by simp [h])
    have ht2 : sep ∉ t := fun h => ht (List.mem_cons_of_mem c h)
    simp [Split, hc, ih ht2]

/-- Three dot-free tokens joined by dots split into these tokens. -/
theorem Split_three (t0 t1 t2 : GoString) (h0 : (46 : UInt8) ∉ t0) (h1 : (46 : UInt8) ∉ t1)
    (h2 : (46 : UInt8) ∉ t2) :
    Split (Join [t0, t1, t2] (utf8 ".")) 46 = [t0, t1, t2] := by
  have hdot : utf8 "." = [46] := by decide
  simp only [Join, hdot, List.append_assoc, List.singleton_append]
  rw [Split_append t0 _ 46 h0, Split_append t1 _ 46 h1, Split_single t2 46 h2]

/-- The result of `ParsePluginVersion` on a string that splits into three tokens: the tokens
are parsed in order, and the first that fails ends the loop with one call of `fail`. -/
theorem ParsePluginVersion_of_split (pv t0 t1 t2 : GoString)
    (h : Split pv 46 = [t0, t1, t2]) :
    ParsePluginVersion pv =
      match Atoi t0 with
      | Except.error _ =>
        { version := { Major := 0, Minor := 0, Build := 0 }
          failed :=
            [{ format := utf8 "pluginVersion %q has invalid format. Expected integer components."
               inserts := [Insert.str pv] }] }
      | Except.ok a =>
        match Atoi t1 with
        | Except.error _ =>
          { version := { Major := a, Minor := 0, Build := 0 }
            failed :=
              [{ format :=
                   utf8 "pluginVersion %q has invalid format. Expected integer components."
                 inserts := [Insert.str pv] }] }
        | Except.ok b =>
          match Atoi t2 with
          | Except.error _ =>
            { version := { Major := a, Minor := b, Build := 0 }
              failed :=
                [{ format :=
                     utf8 "pluginVersion %q has invalid format. Expected integer components."
                   inserts := [Insert.str pv] }] }
          | Except.ok c => { version := { Major := a, Minor := b, Build := c }, failed := [] } := by
  unfold ParsePluginVersion getPluginVersionComponents
  simp only [h, numComponents, List.length_cons, List.length_nil, ne_eq, not_true_eq_false,
    if_false, componentsLoop, List.getD_cons_zero, List.getD_cons_succ, List.replicate]
  cases Atoi t0 with
  | error e => rfl
  | ok a =>
    simp only [List.set]
    cases Atoi t1 with
    | error e => rfl
    | ok b =>
      simp only [List.set]
      cases Atoi t2 with
      | error e => rfl
      | ok c => rfl

/-- The result of `ParsePluginVersion` on a string that does not split into three tokens. -/
theorem ParsePluginVersion_of_count (pv : GoString) (h : (Split pv 46).length ≠ 3) :
    ParsePluginVersion pv =
      { version := { Major := 0, Minor := 0, Build := 0 }
        failed :=
          [{ format :=
               utf8 "pluginVersion %q has invalid format. Expected %d dot-separated integer components."
             inserts := [Insert.str pv, Insert.int 3] }] } := by
  unfold ParsePluginVersion getPluginVersionComponents
  simp only [numComponents, ne_eq, h, not_false_eq_true, if_true]
  rfl

/-- The decimal digits of a number are digits, there is at least one, and they denote it. -/
theorem decimalDigits_spec (n : Nat) :
    decimalDigits n ≠ [] ∧ (∀ d ∈ decimalDigits n, d < 10) ∧
    Nat.ofDigits 10 (decimalDigits n).reverse = n := by
  unfold decimalDigits
  by_cases h : n = 0
  · subst h
    simp
  · rw [if_neg h]
    refine ⟨?_, ?_, ?_⟩
    · simpa using (Nat.digits_ne_nil_iff_ne_zero.mpr h)
    · intro d hd
      exact Nat.digits_lt_base (by norm_num) (List.mem_reverse.mp hd)
    · rw [List.reverse_reverse]
      exact Nat.ofDigits_digits 10 n

/-- The rendering of an integer is a well-formed literal that denotes it. -/
theorem Itoa_literal (a : Int) :
    ∃ l : Literal, l.WellFormed ∧ l.text = Itoa a ∧ l.value = a ∧ l.sign ≠ Sign.plus := by
  obtain ⟨hne, hds, hval⟩ := decimalDigits_spec a.natAbs
  by_cases ha : a < 0
  · refine ⟨{ sign := Sign.minus, digits := decimalDigits a.natAbs }, ⟨hne, hds⟩, ?_, ?_, ?_⟩
    · simp [Literal.text, Itoa, ha]
    · simp only [Literal.value, hval]
      omega
    · simp
  · refine ⟨{ sign := Sign.none, digits := decimalDigits a.natAbs }, ⟨hne, hds⟩, ?_, ?_, ?_⟩
    · simp [Literal.text, Itoa, ha]
    · simp only [Literal.value, hval]
      omega
    · simp

/-- The text of a well-formed literal has no dot. -/
theorem Literal.text_no_dot (l : Literal) (hl : l.WellFormed) : (46 : UInt8) ∉ l.text := by
  obtain ⟨sign, digits⟩ := l
  have hdig : (46 : UInt8) ∉ digits.map digitByte := by
    intro hmem
    obtain ⟨d, hd, heq⟩ := List.mem_map.mp hmem
    exact (digitByte_ne d (hl.2 d hd)).1 heq
  cases sign <;> simp [Literal.text, hdig]

/-- Three well-formed literals joined by dots: each is parsed to its value when all three
values are of type `int`. -/
theorem ParsePluginVersion_of_literals (l0 l1 l2 : Literal) (h0 : l0.WellFormed)
    (h1 : l1.WellFormed) (h2 : l2.WellFormed)
    (r0 : minInt ≤ l0.value ∧ l0.value ≤ maxInt) (r1 : minInt ≤ l1.value ∧ l1.value ≤ maxInt)
    (r2 : minInt ≤ l2.value ∧ l2.value ≤ maxInt) :
    ParsePluginVersion (Join [l0.text, l1.text, l2.text] (utf8 ".")) =
      { version := { Major := l0.value, Minor := l1.value, Build := l2.value }, failed := [] } := by
  rw [ParsePluginVersion_of_split _ _ _ _
    (Split_three _ _ _ (l0.text_no_dot h0) (l1.text_no_dot h1) (l2.text_no_dot h2))]
  rw [Atoi_literal l0 h0, Atoi_literal l1 h1, Atoi_literal l2 h2, if_pos r0, if_pos r1, if_pos r2]

/-! ## Theorems on ParsePluginVersion -/

/-- C11: parsing undoes formatting. For every three integers a, b, c of type `int`,
`ParsePluginVersion` on the base-10 renderings of a, b and c joined by "." returns the
version with Major = a, Minor = b, Build = c and makes no invocation of `fail`. -/
theorem ParsePluginVersion_Itoa_roundtrip (a b c : Int)
    (ha : minInt ≤ a ∧ a ≤ maxInt) (hb : minInt ≤ b ∧ b ≤ maxInt)
    (hc : minInt ≤ c ∧ c ≤ maxInt) :
    ParsePluginVersion (Join [Itoa a, Itoa b, Itoa c] (utf8 ".")) =
      { version := { Major := a, Minor := b, Build := c }, failed := [] } := by
  obtain ⟨la, wa, ta, va, _⟩ := Itoa_literal a
  obtain ⟨lb, wb, tb, vb, _⟩ := Itoa_literal b
  obtain ⟨lc, wc, tc, vc, _⟩ := Itoa_literal c
  rw [← ta, ← tb, ← tc]
  have h := ParsePluginVersion_of_literals la lb lc wa wb wc (by rw [va]; exact ha)
    (by rw [vb]; exact hb) (by rw [vc]; exact hc)
  rw [va, vb, vc] at h
  exact h

/-- Witness for C11: the version string "1.2.3". -/
theorem ParsePluginVersion_Itoa_roundtrip_witness :
    (minInt ≤ 1 ∧ 1 ≤ maxInt) ∧ (minInt ≤ 2 ∧ 2 ≤ maxInt) ∧ (minInt ≤ 3 ∧ 3 ≤ maxInt) ∧
    ParsePluginVersion (utf8 "1.2.3") =
      { version := { Major := 1, Minor := 2, Build := 3 }, failed := [] } :=
  have e : Join [Itoa 1, Itoa 2, Itoa 3] (utf8 ".") = utf8 "1.2.3" := by
    simp [Itoa, decimalDigits, digitByte, Join]
    decide
  ⟨by decide, by decide, by decide,
    e ▸ ParsePluginVersion_Itoa_roundtrip 1 2 3 (by decide) (by decide) (by decide)⟩

/-- C12 (as stated, refuted): the version string "1.2.x" is invalid and `fail` is invoked
once, but the version returned is not the zero-valued one: Major = 1 and Minor = 2 were
stored before the third token failed to parse. -/
theorem ParsePluginVersion_partial_on_bad_token :
    InvalidVersion (utf8 "1.2.x") ∧
    (ParsePluginVersion (utf8 "1.2.x")).failed.length = 1 ∧
    (ParsePluginVersion (utf8 "1.2.x")).version = { Major := 1, Minor := 2, Build := 0 } ∧
    (ParsePluginVersion (utf8 "1.2.x")).version ≠ { Major := 0, Minor := 0, Build := 0 } :=
  ⟨by decide, by decide, by decide, by decide⟩

/-- C12 (amended): for every invalid version string `ParsePluginVersion` invokes `fail`
exactly once, with the string as first insert. It returns the zero-valued version when the
string does not split into three tokens; otherwise it returns the values of the tokens before
the first one that does not parse, and 0 in the other fields. -/
theorem ParsePluginVersion_invalid (pv : GoString) (h : InvalidVersion pv) :
    (∃ call, (ParsePluginVersion pv).failed = [call] ∧
      call.inserts.head? = some (Insert.str pv)) ∧
    ((Split pv 46).length ≠ 3 →
      (ParsePluginVersion pv).version = { Major := 0, Minor := 0, Build := 0 }) ∧
    (∀ t0 t1 t2, Split pv 46 = [t0, t1, t2] →
      (ParsePluginVersion pv).version =
        { Major := atoiOrZero t0
          Minor := if atoiFails t0 = true then 0 else atoiOrZero t1
          Build := 0 }) := by
  by_cases hlen : (Split pv 46).length = 3
  · have hany : (Split pv 46).any atoiFails = true := by
      rcases h with h1 | h1
      · exact absurd hlen h1
      · exact h1
    obtain ⟨t0, t1, t2, hsplit⟩ : ∃ t0 t1 t2, Split pv 46 = [t0, t1, t2] := by
      match hs : Split pv 46, hlen with
      | [x, y, z], _ => exact ⟨x, y, z, rfl⟩
    have hres := ParsePluginVersion_of_split pv t0 t1 t2 hsplit
    rw [hsplit] at hany
    simp only [List.any_cons, List.any_nil, Bool.or_false, Bool.or_eq_true, atoiFails] at hany
    refine ⟨?_, fun hne => absurd hlen hne, ?_⟩
    · rw [hres]
      cases h0 : Atoi t0 with
      | error e => exact ⟨_, rfl, rfl⟩
      | ok a =>
        cases h1 : Atoi t1 with
        | error e => exact ⟨_, rfl, rfl⟩
        | ok b =>
          cases h2 : Atoi t2 with
          | error e => exact ⟨_, rfl, rfl⟩
          | ok c => simp [h0, h1, h2] at hany
    · intro u0 u1 u2 hu
      rw [hsplit] at hu
      injection hu with e0 hu
      injection hu with e1 hu
      injection hu with e2 _
      subst e0 e1 e2
      rw [hres]
      unfold atoiOrZero atoiFails
      cases h0 : Atoi t0 with
      | error e => rfl
      | ok a =>
        cases h1 : Atoi t1 with
        | error e => simp
        | ok b =>
          cases h2 : Atoi t2 with
          | error e => simp
          | ok c => simp [h0, h1, h2] at hany
  · have hres := ParsePluginVersion_of_count pv hlen
    refine ⟨?_, fun _ => by rw [hres], ?_⟩
    · rw [hres]
      exact ⟨_, rfl, rfl⟩
    · intro t0 t1 t2 hsplit
      rw [hsplit] at hlen
      exact absurd rfl hlen

/-- Witness for C12: the version string "1.2", which has two tokens. -/
theorem ParsePluginVersion_invalid_witness :
    InvalidVersion (utf8 "1.2") ∧
    (∃ call, (ParsePluginVersion (utf8 "1.2")).failed = [call] ∧
      call.inserts.head? = some (Insert.str (utf8 "1.2"))) ∧
    (ParsePluginVersion (utf8 "1.2")).version = { Major := 0, Minor := 0, Build := 0 } :=
  ⟨by decide, (ParsePluginVersion_invalid (utf8 "1.2") (by decide)).1,
    (ParsePluginVersion_invalid (utf8 "1.2") (by decide)).2.1 (by decide)⟩

/-- C13 (as stated, refuted): "9223372036854775808.0.0" is made of three base-10 integer
literals, the first of which denotes 2^63; `ParsePluginVersion` does not return that value
but invokes `fail` and returns the zero-valued version. -/
theorem ParsePluginVersion_rejects_out_of_range :
    ∃ l0 l1 l2 : Literal, l0.WellFormed ∧ l1.WellFormed ∧ l2.WellFormed ∧
      Join [l0.text, l1.text, l2.text] (utf8 ".") = utf8 "9223372036854775808.0.0" ∧
      l0.value = 9223372036854775808 ∧
      (ParsePluginVersion (utf8 "9223372036854775808.0.0")).failed.length = 1 ∧
      (ParsePluginVersion (utf8 "9223372036854775808.0.0")).version =
        { Major := 0, Minor := 0, Build := 0 } :=
  ⟨{ sign := Sign.none, digits := [9, 2, 2, 3, 3, 7, 2, 0, 3, 6, 8, 5, 4, 7, 7, 5, 8, 0, 8] },
    { sign := Sign.none, digits := [0] }, { sign := Sign.none, digits := [0] },
    by unfold Literal.WellFormed; decide, by unfold Literal.WellFormed; decide,
    by unfold Literal.WellFormed; decide, by decide,
    by norm_num [Literal.value, Nat.ofDigits], by decide, by decide⟩

/-- C13 (amended): `ParsePluginVersion` validates no range of its own, but `strconv.Atoi`
only yields values of type `int`. For every three base-10 integer literals joined by ".",
with a minus or plus sign and leading zeros allowed: when the three values lie between
`math.MinInt` and `math.MaxInt` they are returned as they are and `fail` is not invoked;
when one of them lies outside, `fail` is invoked exactly once and that value is not returned:
the version returned holds the values of the literals before the first one outside the range
and 0 in the other fields, so the field of every literal outside the range is 0 and differs
from its value. -/
theorem ParsePluginVersion_literals (l0 l1 l2 : Literal) (h0 : l0.WellFormed)
    (h1 : l1.WellFormed) (h2 : l2.WellFormed) :
    ((minInt ≤ l0.value ∧ l0.value ≤ maxInt) ∧ (minInt ≤ l1.value ∧ l1.value ≤ maxInt) ∧
        (minInt ≤ l2.value ∧ l2.value ≤ maxInt) →
      ParsePluginVersion (Join [l0.text, l1.text, l2.text] (utf8 ".")) =
        { version := { Major := l0.value, Minor := l1.value, Build := l2.value }
          failed := [] }) ∧
    (¬ ((minInt ≤ l0.value ∧ l0.value ≤ maxInt) ∧ (minInt ≤ l1.value ∧ l1.value ≤ maxInt) ∧
        (minInt ≤ l2.value ∧ l2.value ≤ maxInt)) →
      (ParsePluginVersion (Join [l0.text, l1.text, l2.text] (utf8 "."))).failed.length = 1 ∧
      (ParsePluginVersion (Join [l0.text, l1.text, l2.text] (utf8 "."))).version =
        { Major := if minInt ≤ l0.value ∧ l0.value ≤ maxInt then l0.value else 0
          Minor :=
            if (minInt ≤ l0.value ∧ l0.value ≤ maxInt) ∧
                (minInt ≤ l1.value ∧ l1.value ≤ maxInt) then l1.value
            else 0
          Build := 0 } ∧
      (¬ (minInt ≤ l0.value ∧ l0.value ≤ maxInt) →
        (ParsePluginVersion (Join [l0.text, l1.text, l2.text] (utf8 "."))).version.Major = 0 ∧
        (ParsePluginVersion (Join [l0.text, l1.text, l2.text] (utf8 "."))).version.Major ≠
          l0.value) ∧
      (¬ (minInt ≤ l1.value ∧ l1.value ≤ maxInt) →
        (ParsePluginVersion (Join [l0.text, l1.text, l2.text] (utf8 "."))).version.Minor = 0 ∧
        (ParsePluginVersion (Join [l0.text, l1.text, l2.text] (utf8 "."))).version.Minor ≠
          l1.value) ∧
      (¬ (minInt ≤ l2.value ∧ l2.value ≤ maxInt) →
        (ParsePluginVersion (Join [l0.text, l1.text, l2.text] (utf8 "."))).version.Build = 0 ∧
        (ParsePluginVersion (Join [l0.text, l1.text, l2.text] (utf8 "."))).version.Build ≠
          l2.value)) := by
  refine ⟨fun hr => ParsePluginVersion_of_literals l0 l1 l2 h0 h1 h2 hr.1 hr.2.1 hr.2.2, ?_⟩
  intro hnot
  have hzero : minInt ≤ 0 ∧ (0 : Int) ≤ maxInt := by decide
  have z0 : ¬ (minInt ≤ l0.value ∧ l0.value ≤ maxInt) → (0 : Int) ≠ l0.value :=
    fun h e => h (e ▸ hzero)
  have z1 : ¬ (minInt ≤ l1.value ∧ l1.value ≤ maxInt) → (0 : Int) ≠ l1.value :=
    fun h e => h (e ▸ hzero)
  have z2 : ¬ (minInt ≤ l2.value ∧ l2.value ≤ maxInt) → (0 : Int) ≠ l2.value :=
    fun h e => h (e ▸ hzero)
  have hP := ParsePluginVersion_of_split _ _ _ _
    (Split_three _ _ _ (l0.text_no_dot h0) (l1.text_no_dot h1) (l2.text_no_dot h2))
  rw [Atoi_literal l0 h0, Atoi_literal l1 h1, Atoi_literal l2 h2] at hP
  by_cases r0 : minInt ≤ l0.value ∧ l0.value ≤ maxInt
  · by_cases r1 : minInt ≤ l1.value ∧ l1.value ≤ maxInt
    · by_cases r2 : minInt ≤ l2.value ∧ l2.value ≤ maxInt
      · exact absurd ⟨r0, r1, r2⟩ hnot
      · rw [if_pos r0, if_pos r1, if_neg r2] at hP
        rw [hP]
        refine ⟨rfl, ?_, fun h => absurd r0 h, fun h => absurd r1 h, fun _ => ⟨rfl, z2 r2⟩⟩
        simp only [if_pos r0, if_pos (And.intro r0 r1)]
    · rw [if_pos r0, if_neg r1] at hP
      rw [hP]
      refine ⟨rfl, ?_, fun h => absurd r0 h, fun _ => ⟨rfl, z1 r1⟩, fun h => ⟨rfl, z2 h⟩⟩
      simp only [if_pos r0, r1, and_false, if_false]
  · rw [if_neg r0] at hP
    rw [hP]
    refine ⟨rfl, ?_, fun _ => ⟨rfl, z0 r0⟩, fun h => ⟨rfl, z1 h⟩, fun h => ⟨rfl, z2 h⟩⟩
    simp only [if_neg r0, r0, false_and, if_false]

/-- Witness for C13: the smallest `int`, a literal with leading zeros and a literal with a
plus sign. -/
theorem ParsePluginVersion_literals_witness :
    ParsePluginVersion (utf8 "-9223372036854775808.007.+42") =
      { version := { Major := -9223372036854775808, Minor := 7, Build := 42 }, failed := [] } :=
  have e : Join
      [Literal.text
          { sign := Sign.minus
            digits := [9, 2, 2, 3, 3, 7, 2, 0, 3, 6, 8, 5, 4, 7, 7, 5, 8, 0, 8] },
        Literal.text { sign := Sign.none, digits := [0, 0, 7] },
        Literal.text { sign := Sign.plus, digits := [4, 2] }] (utf8 ".") =
      utf8 "-9223372036854775808.007.+42" := by decide
  have v0 : Literal.value
      { sign := Sign.minus
        digits := [9, 2, 2, 3, 3, 7, 2, 0, 3, 6, 8, 5, 4, 7, 7, 5, 8, 0, 8] } =
      -9223372036854775808 := by norm_num [Literal.value, Nat.ofDigits]
  have v1 : Literal.value { sign := Sign.none, digits := [0, 0, 7] } = 7 := by
    norm_num [Literal.value, Nat.ofDigits]
  have v2 : Literal.value { sign := Sign.plus, digits := [4, 2] } = 42 := by
    norm_num [Literal.value, Nat.ofDigits]
  have h := (ParsePluginVersion_literals
    { sign := Sign.minus, digits := [9, 2, 2, 3, 3, 7, 2, 0, 3, 6, 8, 5, 4, 7, 7, 5, 8, 0, 8] }
    { sign := Sign.none, digits := [0, 0, 7] } { sign := Sign.plus, digits := [4, 2] }
    (by unfold Literal.WellFormed; decide) (by unfold Literal.WellFormed; decide)
    (by unfold Literal.WellFormed; decide)).1
    (by rw [v0, v1, v2]; decide)
  by rw [e, v0, v1, v2] at h; exact h

/-! ## What TrimSpace removes -/

/-- A string has the prefix `e` exactly when it is `e` followed by the rest. -/
theorem hasPrefix_iff (s e : GoString) : HasPrefix s e = true ↔ s = e ++ s.drop e.length := by
  unfold HasPrefix
  constructor
  · intro h
    simp only [Bool.and_eq_true, decide_eq_true_eq, beq_iff_eq] at h
    conv_lhs => rw [← List.take_append_drop e.length s]
    rw [h.2]
  · intro h
    simp only [Bool.and_eq_true, decide_eq_true_eq, beq_iff_eq]
    constructor
    · have := congrArg List.length h
      simp only [List.length_append] at this
      omega
    · conv_lhs => rw [h]
      simp

/-- Every white-space encoding has at least one byte. -/
theorem spaceEncodings_ne_nil : ∀ e ∈ spaceEncodings, 1 ≤ e.length := by decide

/-- When a leading white-space code point is removed, the string was that code point followed
by what is left. -/
theorem dropLeadingSpace_some (s rest : GoString) (h : dropLeadingSpace s = some rest) :
    ∃ e ∈ spaceEncodings, s = e ++ rest := by
  unfold dropLeadingSpace at h
  cases hf : spaceEncodings.find? (fun e => HasPrefix s e) with
  | none => rw [hf] at h; cases h
  | some e =>
    rw [hf] at h
    simp only [Option.map_some', Option.some.injEq] at h
    have hmem := List.mem_of_find?_eq_some hf
    have hp := List.find?_some hf
    refine ⟨e, hmem, ?_⟩
    rw [← h]
    exact (hasPrefix_iff s e).mp hp

/-- When no leading white-space code point can be removed, the string starts with none. -/
theorem dropLeadingSpace_none (s : GoString) (h : dropLeadingSpace s = none) :
    ∀ e ∈ spaceEncodings, HasPrefix s e = false := by
  unfold dropLeadingSpace at h
  simp only [Option.map_eq_none'] at h
  intro e he
  have := List.find?_eq_none.mp h e he
  simpa using this

/-- The same two facts for a string read backwards. -/
theorem dropTrailingSpaceRev_some (r rest : GoString) (h : dropTrailingSpaceRev r = some rest) :
    ∃ e ∈ spaceEncodings, r = e.reverse ++ rest := by
  unfold dropTrailingSpaceRev at h
  cases hf : spaceEncodings.find? (fun e => HasPrefix r e.reverse) with
  | none => rw [hf] at h; cases h
  | some e =>
    rw [hf] at h
    simp only [Option.map_some', Option.some.injEq] at h
    have hmem := List.mem_of_find?_eq_some hf
    have hp := List.find?_some hf
    refine ⟨e, hmem, ?_⟩
    rw [← h]
    have := (hasPrefix_iff r e.reverse).mp hp
    rwa [List.length_reverse] at this

/-- No white-space code point ends a string from whose reversal none can be removed. -/
theorem dropTrailingSpaceRev_none (r : GoString) (h : dropTrailingSpaceRev r = none) :
    ∀ e ∈ spaceEncodings, HasPrefix r e.reverse = false := by
  unfold dropTrailingSpaceRev at h
  simp only [Option.map_eq_none'] at h
  intro e he
  have := List.find?_eq_none.mp h e he
  simpa using this

/-- The removal loop takes away a run of code points that `f` recognises, and with fuel for
every byte it stops only when `f` recognises nothing more. -/
theorem stripWhile_spec (f : GoString → Option GoString) (enc : GoString → GoString)
    (hf : ∀ s rest, f s = some rest → ∃ e ∈ spaceEncodings, s = enc e ++ rest)
    (henc : ∀ e ∈ spaceEncodings, 1 ≤ (enc e).length) (fuel : Nat) (s : GoString)
    (hfuel : s.length ≤ fuel) :
    f (stripWhile f fuel s) = none ∧
    ∃ es : List GoString, (∀ e ∈ es, e ∈ spaceEncodings) ∧
      s = (es.map enc).flatten ++ stripWhile f fuel s := by
  induction fuel generalizing s with
  | zero =>
    have hs : s = [] := List.length_eq_zero.mp (by omega)
    subst hs
    refine ⟨?_, [], by simp, by simp [stripWhile]⟩
    simp only [stripWhile]
    cases h : f [] with
    | none => rfl
    | some rest =>
      obtain ⟨e, he, heq⟩ := hf [] rest h
      have := henc e he
      have hl := congrArg List.length heq
      simp only [List.length_nil, List.length_append] at hl
      omega
  | succ fuel ih =>
    cases h : f s with
    | none =>
      have e : stripWhile f (fuel + 1) s = s := by simp only [stripWhile, h]
      rw [e]
      exact ⟨h, [], by simp, by simp⟩
    | some rest =>
      obtain ⟨e, he, heq⟩ := hf s rest h
      have hlen : rest.length ≤ fuel := by
        have := henc e he
        have hl := congrArg List.length heq
        simp only [List.length_append] at hl
        omega
      obtain ⟨h1, es, hes, hrest⟩ := ih rest hlen
      have e2 : stripWhile f (fuel + 1) s = stripWhile f fuel rest := by
        simp only [stripWhile, h]
      rw [e2]
      refine ⟨h1, e :: es, ?_, ?_⟩
      · intro x hx
        rcases List.mem_cons.mp hx with rfl | hx
        · exact he
        · exact hes x hx
      · simp only [List.map_cons, List.flatten_cons, List.append_assoc]
        rw [← hrest]
        exact heq

/-- The model of `strings.TrimSpace` removes a run of white-space code points at the front and
one at the back, and what is left neither starts nor ends with a white-space code point. -/
theorem TrimSpace_spec (s : GoString) :
    ∃ front back : List GoString,
      (∀ e ∈ front, e ∈ spaceEncodings) ∧ (∀ e ∈ back, e ∈ spaceEncodings) ∧
      s = front.flatten ++ TrimSpace s ++ back.flatten ∧
      (∀ e ∈ spaceEncodings, HasPrefix (TrimSpace s) e = false) ∧
      (∀ e ∈ spaceEncodings, HasPrefix (TrimSpace s).reverse e.reverse = false) := by
  obtain ⟨hl1, front, hfront, hs⟩ :=
    stripWhile_spec dropLeadingSpace id dropLeadingSpace_some
      (fun e he => spaceEncodings_ne_nil e he) s.length s (Nat.le_refl _)
  generalize hl : stripWhile dropLeadingSpace s.length s = l at hl1 hs
  obtain ⟨hr1, backRev, hback, hlr⟩ :=
    stripWhile_spec dropTrailingSpaceRev List.reverse dropTrailingSpaceRev_some
      (fun e he => by rw [List.length_reverse]; exact spaceEncodings_ne_nil e he)
      l.length l.reverse (by simp)
  have hT : TrimSpace s = (stripWhile dropTrailingSpaceRev l.length l.reverse).reverse := by
    unfold TrimSpace
    simp only [hl]
  generalize hr : stripWhile dropTrailingSpaceRev l.length l.reverse = r at hr1 hlr hT
  have hlsplit : l = r.reverse ++ backRev.reverse.flatten := by
    have := congrArg List.reverse hlr
    rw [List.reverse_reverse, List.reverse_append] at this
    rw [this]
    congr 1
    clear hlr hback this
    induction backRev with
    | nil => rfl
    | cons e es ih => simp [ih]
  refine ⟨front, backRev.reverse, hfront, ?_, ?_, ?_, ?_⟩
  · intro e he
    exact hback e (List.mem_reverse.mp he)
  · rw [hT, List.append_assoc, ← hlsplit]
    simpa using hs
  · intro e he
    rw [hT]
    cases hp : HasPrefix r.reverse e with
    | false => rfl
    | true =>
      exfalso
      have h1 := (hasPrefix_iff _ _).mp hp
      have h2 : HasPrefix l e = true := by
        rw [hasPrefix_iff, hlsplit, h1]
        simp
      rw [dropLeadingSpace_none l hl1 e he] at h2
      cases h2
  · intro e he
    rw [hT, List.reverse_reverse]
    exact dropTrailingSpaceRev_none r hr1 e he

/-! ## The value of a single block -/

/-- The inner loop of `processVars` appends the trimmed lines in order. -/
theorem foldl_TrimSpace (ls : List GoString) (init : GoString) :
    ls.foldl (fun varValue varLine => varValue ++ TrimSpace varLine) init =
      init ++ (ls.map TrimSpace).flatten := by
  induction ls generalizing init with
  | nil => simp
  | cons l ls ih => simp [ih, List.append_assoc]

/-- C14: for every input made of a line that starts with an opening brace, a header line
`  "NAME": \x7b`, interior lines none of which starts with a brace, and a line that starts
with a closing brace, `processVars` returns exactly one entry; its value is an opening brace
followed by the interior lines, each trimmed of surrounding white space, concatenated in
order with no separator, so that neither the header line nor the closing line contributes to
it. (Its key is NAME preceded by the opening double quote of the header.) -/
theorem processVars_single_block (opening name closing : GoString) (interior : List GoString)
    (hopen : HasPrefix opening (utf8 "\x7b") = true)
    (hint : ∀ l ∈ interior,
      HasPrefix l (utf8 "\x7b") = false ∧ HasPrefix l (utf8 "\x7d") = false)
    (hclose : HasPrefix closing (utf8 "\x7d") = true) :
    processVars (opening :: (utf8 "  \"" ++ name ++ utf8 "\": \x7b") :: (interior ++ [closing])) =
      Except.ok [(utf8 "\"" ++ name, utf8 "\x7b" ++ (interior.map TrimSpace).flatten)] := by
  have hb := Block.wellFormed_two_space_header
    { opening := opening, header := utf8 "  \"" ++ name ++ utf8 "\": \x7b"
      interior := interior, closing := closing }
    name hopen rfl hint hclose
  have hloop := processVarsLoop_block _ _ hb { usefulDataAccumulator := none, vars := [] }
  simp only [Block.lines] at hloop
  unfold processVars
  rw [hloop]
  simp [mapSet, varValueOf, foldl_TrimSpace]

/-- Witness for C14: a block with two interior lines, one of them an indented closing
brace. -/
theorem processVars_single_block_witness :
    processVars [utf8 "\x7b", utf8 "  \"VCAP_SERVICES\": \x7b", utf8 "   \"p\": 1 ", utf8 "  \x7d",
      utf8 "\x7d"] =
      Except.ok [(utf8 "\"VCAP_SERVICES", utf8 "\x7b\"p\": 1\x7d")] :=
  have e : utf8 "\x7b" ++ ([utf8 "   \"p\": 1 ", utf8 "  \x7d"].map TrimSpace).flatten =
      utf8 "\x7b\"p\": 1\x7d" := by decide
  have h := processVars_single_block (utf8 "\x7b") (utf8 "VCAP_SERVICES") (utf8 "\x7d")
    [utf8 "   \"p\": 1 ", utf8 "  \x7d"] (by decide) (by decide) (by decide)
  by rw [e] at h; exact h

end TunnelBoot
